import Mathlib

/-!
Verification of the monarch agents core: a shallow embedding of
`src/utils/token_amount.py` (the `TokenAmount` fixed-point type),
`src/strategies/base.py` / `src/strategies/simple_max_apy.py` (the
reallocation engine) and `src/services/blockchain_service.py` (the
transaction-parameter composer), with proofs of the specification's
claims about them.

Modelling conventions:
* Python `int` values that are known non-negative are `ℕ`; values that can
  go negative (market liquidity `totalSupply - totalBorrow`) are `ℤ`.
* Python exceptions are an `Except Err` monad; each `raise` site in the
  source maps to a `throw` of the corresponding error kind.
* Python strings that the code inspects character by character (market
  ids, decimal renderings) are `List Char`.
* `decimal.Decimal` quantities whose exact value the code consumes
  (supply APYs) are `ℚ`; an APY field stands for the exact real value of
  the binary64 float that `float(state.supply_apy)` produces, so Python's
  float comparisons are exact comparisons of these rationals.
* The binary64 arithmetic in `int(total_supply * max_market_impact_ratio)`
  is embedded exactly: an IEEE-754 double is a pair `sig * 2 ^ exp` and
  every conversion/multiplication rounds to 53 significant bits with
  round-half-to-even, the rounding CPython uses for `int -> float`
  conversion and float multiplication.
-/

/-- Error kinds of the embedded code, one per `raise` family in the source:
`scaleMismatch`/`overflow`/`underflow`/`outOfRange`/`precisionLoss`/
`invalidPrecision`/`invalidDecimal` from `token_amount.py`,
`keyError` for Python `dict[...]` misses, `emptySide` for the composer's
`ValueError` on a one-sided rebalance, and `overflowError` for CPython's
`OverflowError` when an `int` does not fit in a binary64 float. -/
inductive Err where
  | scaleMismatch
  | overflow
  | underflow
  | outOfRange
  | precisionLoss
  | invalidPrecision
  | invalidDecimal
  | keyError
  | emptySide
  | overflowError
deriving DecidableEq, Repr

deriving instance DecidableEq for Except

/-- `TokenAmount` (src/utils/token_amount.py): a raw integer amount in the
token's smallest unit together with the token's decimals. Validation is
performed by the smart constructors below, mirroring `__post_init__`. -/
structure TokenAmount where
  raw : ℕ
  decimals : ℕ
deriving DecidableEq, Repr

namespace TokenAmount

/-- `MAX_UINT256 = 2**256 - 1`. -/
def MAX_UINT256 : ℕ := 2 ^ 256 - 1

/-- `MAX_DECIMALS = 77`. -/
def MAX_DECIMALS : ℕ := 77

/-- `TokenAmount.from_wei` on a non-negative integer argument: the
dataclass `__post_init__` validation (raw in `[0, 2^256-1]`, decimals in
`[0, 77]`; the `raw < 0` branch is vacuous at type `ℕ`). -/
def from_wei (wei : ℕ) (decimals : ℕ) : Except Err TokenAmount :=
  if wei > MAX_UINT256 then throw .outOfRange
  else if decimals > MAX_DECIMALS then throw .outOfRange
  else pure ⟨wei, decimals⟩

/-- `TokenAmount.from_wei` on a possibly negative integer (used for the
engine's logging of contract liquidity, which is `totalSupply -
totalBorrow : ℤ`): `__post_init__` raises on a negative raw amount. -/
def fromWeiInt (wei : ℤ) (decimals : ℕ) : Except Err TokenAmount :=
  if wei < 0 then throw .outOfRange
  else from_wei wei.toNat decimals

/-- `__add__`: scale check, then overflow check against `MAX_UINT256`. -/
def add (a b : TokenAmount) : Except Err TokenAmount :=
  if a.decimals ≠ b.decimals then throw .scaleMismatch
  else if a.raw + b.raw > MAX_UINT256 then throw .overflow
  else pure ⟨a.raw + b.raw, a.decimals⟩

/-- `__sub__`: scale check, then underflow check (`self.raw < other.raw`). -/
def sub (a b : TokenAmount) : Except Err TokenAmount :=
  if a.decimals ≠ b.decimals then throw .scaleMismatch
  else if a.raw < b.raw then throw .underflow
  else pure ⟨a.raw - b.raw, a.decimals⟩

/-- `__lt__`: scale check, then raw comparison. -/
def lt (a b : TokenAmount) : Except Err Bool :=
  if a.decimals ≠ b.decimals then throw .scaleMismatch
  else pure (decide (a.raw < b.raw))

/-- `__le__`. -/
def le (a b : TokenAmount) : Except Err Bool :=
  if a.decimals ≠ b.decimals then throw .scaleMismatch
  else pure (decide (a.raw ≤ b.raw))

/-- `__gt__`. -/
def gt (a b : TokenAmount) : Except Err Bool :=
  if a.decimals ≠ b.decimals then throw .scaleMismatch
  else pure (decide (a.raw > b.raw))

/-- `__ge__`. -/
def ge (a b : TokenAmount) : Except Err Bool :=
  if a.decimals ≠ b.decimals then throw .scaleMismatch
  else pure (decide (a.raw ≥ b.raw))

/-- The dataclass-generated `__eq__`: a total Boolean equality comparing
the `(raw, decimals)` field tuples; it never raises, unlike the ordering
comparisons which go through `_validate_other`. -/
def eqb (a b : TokenAmount) : Bool :=
  a.raw == b.raw && a.decimals == b.decimals

end TokenAmount

/-! ### Decimal string rendering and parsing

`to_units` divides `Decimal(raw)` by `10 ** decimals` under a context of
78 significant digits — exact, because a division by a power of ten only
shifts the decimal point of a ≤ 78-digit integer — and then formats the
result with `f"{x:.{precision}f}"`.  `Decimal.__format__` rounds with the
current context's rounding mode, which this module never changes from the
default `ROUND_HALF_EVEN` (the `ROUND_DOWN` import on line 3 of
`token_amount.py` is unused).  So the formatted value is `raw / 10 ^
(decimals - precision)` rounded half-to-even when `precision < decimals`,
and `raw * 10 ^ (precision - decimals)` (zero padding) otherwise; the
repository's own tests pin this rounding
(`to_units(precision=4) == "1.2346"` for raw `1234567`, decimals 6). -/

/-- Round `n / m` to the nearest integer, ties to even (`m > 0`). -/
def rhe (n m : ℕ) : ℕ :=
  if 2 * (n % m) > m ∨ (2 * (n % m) = m ∧ (n / m) % 2 = 1) then n / m + 1
  else n / m

/-- Base-10 digits of `v`, least significant first, computed with
structural fuel (`fuel ≥ v` suffices); kernel-reducible, and equal to
`Nat.digits 10 v` (proved below). -/
def digitsLE : ℕ → ℕ → List ℕ
  | _, 0 => []
  | 0, _ => []
  | fuel + 1, v => v % 10 :: digitsLE fuel (v / 10)

/-- Digits of `v` in base 10, most significant first, as characters
(empty for `v = 0`). -/
def digitChars (v : ℕ) : List Char :=
  (digitsLE v v).reverse.map (fun d => Char.ofNat (d + 48))

/-- Integer-part rendering: like `digitChars` but `0` renders as `"0"`,
matching Python's fixed-point formatting of values below 1. -/
def intRender (v : ℕ) : List Char :=
  if v = 0 then ['0'] else digitChars v

/-- Fractional-part rendering: exactly `p` digits with leading zeros. -/
def fracRender (p v : ℕ) : List Char :=
  List.replicate (p - (digitChars v).length) '0' ++ digitChars v

/-- Python's fixed-point formatting of the non-negative value
`scaled / 10 ^ p` to exactly `p` fractional digits: integer part, and a
dot plus `p` zero-padded digits when `p > 0`. -/
def renderFixed (p scaled : ℕ) : List Char :=
  intRender (scaled / 10 ^ p) ++
    if p = 0 then [] else '.' :: fracRender p (scaled % 10 ^ p)

/-- `TokenAmount.to_units(precision)`: validates `precision ≤ 77`
(`precision < 0` is vacuous at `ℕ`), then renders the exact quotient
`raw / 10 ^ decimals` to `precision` fractional digits with
round-half-to-even (see the section comment).  With `precision = 0` the
format produces no decimal point. -/
def to_units (a : TokenAmount) (precision : ℕ) : Except Err (List Char) :=
  if precision > TokenAmount.MAX_DECIMALS then throw .invalidPrecision
  else
    let scaled :=
      if precision ≤ a.decimals then rhe a.raw (10 ^ (a.decimals - precision))
      else a.raw * 10 ^ (precision - a.decimals)
    pure (renderFixed precision scaled)

/-- Spec-modelled reference for claim C2 only, following the spec's words:
"round-toward-zero truncation (matches the reference behavior of simple
integer division)" — the same rendering as `to_units` but the scaled
value is the truncated quotient `raw / 10 ^ (decimals - precision)`. -/
def to_units_truncating (a : TokenAmount) (precision : ℕ) : Except Err (List Char) :=
  if precision > TokenAmount.MAX_DECIMALS then throw .invalidPrecision
  else
    let scaled :=
      if precision ≤ a.decimals then a.raw / 10 ^ (a.decimals - precision)
      else a.raw * 10 ^ (precision - a.decimals)
    pure (renderFixed precision scaled)

/-- Value of a digit string, most significant first (`""` is 0). -/
def digitsToNat (s : List Char) : ℕ :=
  s.foldl (fun acc c => acc * 10 + (c.toNat - 48)) 0

/-- `TokenAmount.from_units` on a decimal string (`src/utils/token_amount.py`
lines 68–107).  The source first counts the fractional digits after the
first `'.'` (Python `split('.')[1]`, the segment between the first and
second dot) and raises if they exceed `decimals`; then parses with
`Decimal`, multiplies by `10 ** decimals` (exact here, because the
fractional-digit check already bounds the shift so the product is an
integer of at most 78 significant digits whenever it is within the later
`MAX_UINT256` bound), checks the bound, and constructs the `TokenAmount`
(whose `__post_init__` validates `decimals ≤ 77`).  Strings `Decimal`
rejects (empty, a lone dot, non-digits, two dots) map to
`invalidDecimal`. -/
def from_units (s : List Char) (decimals : ℕ) : Except Err TokenAmount :=
  let intPart := s.takeWhile (· ≠ '.')
  let rest := (s.dropWhile (· ≠ '.')).drop 1
  let fracPart := rest.takeWhile (· ≠ '.')
  if s.contains '.' then
    if fracPart.length > decimals then throw .precisionLoss
    else parseTail intPart rest fracPart
  else parseTail intPart rest fracPart
where
  parseTail (intPart rest fracPart : List Char) : Except Err TokenAmount :=
    if ¬ (intPart.all Char.isDigit ∧ fracPart.all Char.isDigit ∧
          rest.length = fracPart.length ∧ (intPart ≠ [] ∨ fracPart ≠ [])) then
      throw .invalidDecimal
    else
      let wei := digitsToNat intPart * 10 ^ decimals +
        digitsToNat fracPart * 10 ^ (decimals - fracPart.length)
      if wei > TokenAmount.MAX_UINT256 then throw .outOfRange
      else if decimals > TokenAmount.MAX_DECIMALS then throw .outOfRange
      else pure ⟨wei, decimals⟩

/-! ### IEEE-754 binary64 model

`simple_max_apy.py` line 143 computes
`int(target_market_supply_wei * self.max_market_impact_ratio)`: the
Python `int` is converted to a binary64 float (round half to even;
`OverflowError` if the value reaches `2^1024`), multiplied by the float
ratio (IEEE round half to even), and truncated toward zero by `int()`.
A non-negative double is `sig * 2 ^ exp`; representations here are not
normalised — only the value matters, and every rounding step reduces the
significand to at most 53 bits first. -/

/-- A non-negative binary64 value `sig * 2 ^ exp`. -/
structure FP where
  sig : ℕ
  exp : ℤ
deriving DecidableEq, Repr

/-- Number of bits of `n` (`0` for `0`), with structural fuel. -/
def bitlenAux : ℕ → ℕ → ℕ
  | _, 0 => 0
  | 0, _ => 0
  | fuel + 1, v => bitlenAux fuel (v / 2) + 1

/-- Number of bits of `n`: `2 ^ (bitlen n - 1) ≤ n < 2 ^ bitlen n`. -/
def bitlen (n : ℕ) : ℕ := bitlenAux n n

/-- Round the value `m * 2 ^ e` to 53 significand bits, half to even. -/
def roundFP (m : ℕ) (e : ℤ) : FP :=
  if m < 2 ^ 53 then ⟨m, e⟩
  else
    let k := bitlen m - 53
    let q := m / 2 ^ k
    let r := m % 2 ^ k
    let h := 2 ^ (k - 1)
    ⟨if r > h ∨ (r = h ∧ q % 2 = 1) then q + 1 else q, e + k⟩

/-- Does an `FP` value reach `2 ^ 1024` (the binary64 overflow bound)? -/
def FP.overflows (f : FP) : Bool :=
  if f.exp ≥ 0 then f.sig * 2 ^ f.exp.toNat ≥ 2 ^ 1024
  else f.sig ≥ 2 ^ (1024 + (-f.exp).toNat)

/-- CPython `float(n)` for `n : ℕ`: round half to even to 53 bits, with
`OverflowError` when the rounded value reaches `2 ^ 1024`. -/
def floatOfNat (n : ℕ) : Except Err FP :=
  let f := roundFP n 0
  if f.overflows then throw .overflowError else pure f

/-- IEEE-754 binary64 multiplication of non-negative values: exact
product, then round to 53 bits half to even.  A product reaching
`2 ^ 1024` overflows to infinity; the engine immediately applies `int()`
to the product, which raises `OverflowError` on infinity, so the error is
surfaced here. -/
def fpMulE (a b : FP) : Except Err FP :=
  let f := roundFP (a.sig * b.sig) (a.exp + b.exp)
  if f.overflows then throw .overflowError else pure f

/-- Python `int()` of a non-negative double: truncation toward zero. -/
def fpToNat (f : FP) : ℕ :=
  if f.exp ≥ 0 then f.sig * 2 ^ f.exp.toNat else f.sig / 2 ^ (-f.exp).toNat

/-- The binary64 value nearest to `a / b` (`b ≠ 0`), rounding half to
even: used only to obtain the double for the literal `0.05`.  Scales `a`
by `2 ^ (54 + bitlen b)` so the integer quotient has more than 53 bits,
then rounds, folding the division remainder into the sticky comparison. -/
def floatOfRat (a b : ℕ) : FP :=
  let s := 54 + bitlen b
  let n := a * 2 ^ s
  let q := n / b
  let r := n % b
  let k := bitlen q - 53
  let qh := q / 2 ^ k
  let rem := q % 2 ^ k
  let h := 2 ^ (k - 1)
  ⟨if rem > h ∨ (rem = h ∧ (0 < r ∨ qh % 2 = 1)) then qh + 1 else qh,
   (k : ℤ) - s⟩

/-- The binary64 double written `0.05` in the source
(`MAX_MARKET_IMPACT_RATIO`, the default `max_market_impact_ratio`):
`7205759403792794 * 2 ^ (-57)`. -/
def ratio005 : FP := floatOfRat 1 20

/-- `int(target_market_supply_wei * max_market_impact_ratio)`
(simple_max_apy.py line 143), with the two `OverflowError` avenues. -/
def maxAllocE (ratio : FP) (supplyWei : ℕ) : Except Err ℕ := do
  let s ← floatOfNat supplyWei
  let p ← fpMulE s ratio
  pure (fpToNat p)

/-! ### Data model (`src/models/morpho_data.py`, `src/models/user_data.py`)

Market unique keys and cap market ids are Python strings the code
inspects character-wise, embedded as `List Char`; asset and contract
addresses are only ever compared or copied, embedded as `ℕ` identifiers.
`supply_apy` is the exact rational value of the binary64 float that
`float(market.state.supply_apy)` yields, so Python's float comparisons
and its stable sort on the APY key are exact operations on these `ℚ`
values.  Position and market supply amounts are the non-negative integers
the indexer reports (`int(...)` in `MarketState.from_dict`;
`PositionState.supply_assets` is a `Decimal` holding an integral token
amount, consumed through `int(pos.supply_assets)`). -/

/-- A market unique key / cap market id (a Python string). -/
abbrev MarketId := List Char

/-- `Asset` with the fields the engine reads. -/
structure Asset where
  address : ℕ
  decimals : ℕ
deriving DecidableEq, Repr

/-- `MarketState` with the fields the engine reads. -/
structure MarketState where
  supply_assets : ℕ
  supply_apy : ℚ
deriving DecidableEq, Repr

/-- `Market` with the fields the engine and the composer read. -/
structure Market where
  unique_key : MarketId
  loan_asset : Asset
  collateral_address : ℕ
  oracle_address : ℕ
  irm_address : ℕ
  lltv : ℕ
  state : MarketState
deriving DecidableEq, Repr

/-- `MarketPosition`: `supply_assets`/`supply_shares` are the
`state.supply_*` fields (the dataclass properties alias them). -/
structure MarketPosition where
  unique_key : MarketId
  supply_assets : ℕ
  supply_shares : ℕ
deriving DecidableEq, Repr

/-- `MarketCap` (`src/models/user_data.py`). -/
structure MarketCap where
  market_id : MarketId
  cap : ℚ
deriving DecidableEq, Repr

/-- `action_type`: the engine only ever constructs these two strings. -/
inductive ActionType where
  | withdraw
  | supply
deriving DecidableEq, Repr

/-- `MarketAction` (`src/strategies/base.py`). -/
structure MarketAction where
  market_id : MarketId
  action_type : ActionType
  amount : TokenAmount
  shares : TokenAmount
  current_position : MarketPosition
  target_cap : Option MarketCap
deriving DecidableEq, Repr

/-- `ReallocationStrategy`: the engine's output plan. -/
structure ReallocationStrategy where
  actions : List MarketAction
deriving DecidableEq, Repr

/-- `market_data` is a Python `dict[str, Market]`, embedded as its
insertion-ordered value list; `market_data.get(k)` finds the (unique)
entry with that key. -/
def findMarket (markets : List Market) (k : MarketId) : Option Market :=
  markets.find? (fun m => m.unique_key == k)

/-- Lookup in a dict built by inserting a list of caps in order:
a later cap with the same id overwrites an earlier one, so the dict
lookup returns the last match. -/
def capsFind (caps : List MarketCap) (k : MarketId) : Option MarketCap :=
  caps.reverse.find? (fun c => c.market_id == k)

/-- The cap-id fixing loop (simple_max_apy.py lines 56–60): a
`market_id` starting with `'//'` is rewritten in place to `'0x' + rest`.
Because `cap.market_id` is reassigned on the cap object itself and
`fixed_caps` collects the same objects, this is both the list the engine
uses and the post-call state of the caller's `market_caps` list. -/
def fixCap (c : MarketCap) : MarketCap :=
  match c.market_id with
  | '/' :: '/' :: rest => { c with market_id := '0' :: 'x' :: rest }
  | _ => c

/-! ### BaseStrategy (`src/strategies/base.py`) -/

/-- One entry of `group_positions_by_loan_asset`'s result. -/
structure GroupedPosition where
  loan_token : Asset
  total_asset : TokenAmount
  markets : List MarketPosition
deriving DecidableEq, Repr

/-- Add a position's supply to the (existing) group keyed by the loan
asset address: `grouped_position['total_asset'] += supply_amount` and
`grouped_position['markets'].append(pos)`. -/
def addToGroup : List GroupedPosition → ℕ → TokenAmount → MarketPosition →
    Except Err (List GroupedPosition)
  | [], _, _, _ => pure []
  | g :: gs, addr, supply, pos =>
    if g.loan_token.address = addr then do
      let t ← TokenAmount.add g.total_asset supply
      pure ({ g with total_asset := t, markets := g.markets ++ [pos] } :: gs)
    else do
      let gs' ← addToGroup gs addr supply pos
      pure (g :: gs')

/-- One iteration of the grouping loop (base.py lines 152–181): skip a
position whose market is missing; otherwise convert the supplied amount
(`TokenAmount.from_wei(pos.state.supply_assets, decimals)`), create the
group on first sight of the loan-asset address (with a validated zero
total), and accumulate into the group. -/
def groupStep (markets : List Market) (acc : List GroupedPosition)
    (pos : MarketPosition) : Except Err (List GroupedPosition) :=
  match findMarket markets pos.unique_key with
  | none => pure acc
  | some market => do
    let supply_amount ← TokenAmount.from_wei pos.supply_assets
      market.loan_asset.decimals
    let acc' ←
      if acc.any (fun g => g.loan_token.address == market.loan_asset.address)
        then pure acc
      else do
        let z ← TokenAmount.from_wei 0 market.loan_asset.decimals
        pure (acc ++ [⟨market.loan_asset, z, []⟩])
    addToGroup acc' market.loan_asset.address supply_amount pos

/-- `group_positions_by_loan_asset` (base.py lines 133–194). -/
def group_positions_by_loan_asset (positions : List MarketPosition)
    (markets : List Market) : Except Err (List GroupedPosition) :=
  positions.foldlM (groupStep markets) []

/-- Stable insertion preserving descending key order: the new element
goes after every element with a key `≥` its own, which is exactly how
Python's stable `sort(key=..., reverse=True)` orders ties. -/
def insertDesc (key : α → ℚ) (x : α) : List α → List α
  | [] => [x]
  | y :: ys => if key y ≥ key x then y :: insertDesc key x ys else x :: y :: ys

/-- Stable sort by `key`, descending (Python `sorted(..., reverse=True)` /
`list.sort(..., reverse=True)`). -/
def sortDescBy (key : α → ℚ) (l : List α) : List α :=
  l.foldl (fun acc x => insertDesc key x acc) []

/-- `filter_available_markets` (base.py lines 196–225): the markets whose
loan asset matches, sorted by supply APY descending (the `None`-APY
branch of `get_sort_key` is vacuous here: every embedded snapshot carries
a rational APY). -/
def filter_available_markets (loan_token_addr : ℕ) (markets : List Market) :
    List Market :=
  sortDescBy (fun m => m.state.supply_apy)
    (markets.filter (fun m => m.loan_asset.address == loan_token_addr))

/-- The 6-tuple returned by the Morpho Blue `market(id)` contract read
(the two fields `get_market_liquidity` uses). -/
structure ChainMarketState where
  totalSupplyAssets : ℕ
  totalBorrowAssets : ℕ
deriving DecidableEq, Repr

/-- The injected contract reader: `none` models the `except` branch
(any failure of the `call()`). -/
abbrev LiquidityOracle := MarketId → Option ChainMarketState

/-- `get_market_liquidity` (base.py lines 227–257): `totalSupplyAssets -
totalBorrowAssets` as a Python `int` (which can be negative), and `0`
when the contract call fails. -/
def get_market_liquidity (oracle : LiquidityOracle) (market_id : MarketId) : ℤ :=
  match oracle market_id with
  | some s => (s.totalSupplyAssets : ℤ) - (s.totalBorrowAssets : ℤ)
  | none => 0

/-- `MarketAction.create_withdrawal` (base.py lines 27–60). -/
def create_withdrawal (market_id : MarketId) (position : MarketPosition)
    (market : Market) (move_amount : ℕ) (use_max_shares : Bool)
    (target_cap : Option MarketCap) : Except Err MarketAction :=
  let decimals := market.loan_asset.decimals
  if use_max_shares then do
    let a ← TokenAmount.from_wei 0 decimals
    let s ← TokenAmount.from_wei position.supply_shares 0
    pure ⟨market_id, .withdraw, a, s, position, target_cap⟩
  else do
    let a ← TokenAmount.from_wei move_amount decimals
    let s ← TokenAmount.from_wei 0 decimals
    pure ⟨market_id, .withdraw, a, s, position, target_cap⟩

/-! ### SimpleMaxAPYStrategy (`src/strategies/simple_max_apy.py`)

The dictionaries `withdrawals_by_market`, `supplies_by_market` and
`self.market_allocations`, and the group-scoped local variable
`decimals` (reassigned at line 158 and visible to later iterations), are
threaded as explicit state.  Every `TokenAmount.from_wei(...)` the source
evaluates inside a log f-string is kept as a validation step (`let _ ←`),
because its `__post_init__` can raise and abort the run. -/

/-- `withdrawals_by_market` entry (the engine always fills every field,
so the `Optional` wrappers of the Python `TypedDict` are dropped). -/
structure WithdrawalInfo where
  amount : TokenAmount
  shares : TokenAmount
  position : MarketPosition
  target_cap : MarketCap
deriving DecidableEq, Repr

/-- `supplies_by_market` entry. -/
structure SupplyInfo where
  amount : TokenAmount
  position : MarketPosition
  target_cap : MarketCap
  decimals : ℕ
deriving DecidableEq, Repr

/-- The engine's mutable state during one `calculate_reallocation` call. -/
structure EngState where
  withdrawals : List (MarketId × WithdrawalInfo)
  supplies : List (MarketId × SupplyInfo)
  market_allocations : List (MarketId × ℕ)
  dec : ℕ
deriving DecidableEq, Repr

/-- `self.market_allocations[k]` (a `defaultdict(int)`). -/
def allocD (l : List (MarketId × ℕ)) (k : MarketId) : ℕ :=
  match l.find? (fun p => p.1 == k) with
  | some p => p.2
  | none => 0

/-- `self.market_allocations[k] += v` (inserts at the end on a new key). -/
def allocBump : List (MarketId × ℕ) → MarketId → ℕ → List (MarketId × ℕ)
  | [], k, v => [(k, v)]
  | p :: t, k, v =>
    if p.1 = k then (p.1, p.2 + v) :: t else p :: allocBump t k v

/-- Merge a withdrawal into `withdrawals_by_market` (lines 199–211): a
new key is inserted at the end; an existing entry gets `shares` then
`amount` summed with `TokenAmount.__add__` (position and cap keep the
first entry's values). -/
def wInsertOrMerge : List (MarketId × WithdrawalInfo) → MarketId →
    WithdrawalInfo → Except Err (List (MarketId × WithdrawalInfo))
  | [], k, e => pure [(k, e)]
  | p :: t, k, e =>
    if p.1 = k then do
      let sh ← TokenAmount.add p.2.shares e.shares
      let am ← TokenAmount.add p.2.amount e.amount
      pure ((p.1, { p.2 with shares := sh, amount := am }) :: t)
    else do
      let t' ← wInsertOrMerge t k e
      pure (p :: t')

/-- Merge a supply into `supplies_by_market` (lines 213–224): a new key
is inserted at the end; an existing entry gets `amount` summed. -/
def sInsertOrMerge : List (MarketId × SupplyInfo) → MarketId →
    SupplyInfo → Except Err (List (MarketId × SupplyInfo))
  | [], k, e => pure [(k, e)]
  | p :: t, k, e =>
    if p.1 = k then do
      let am ← TokenAmount.add p.2.amount e.amount
      pure ((p.1, { p.2 with amount := am }) :: t)
    else do
      let t' ← sInsertOrMerge t k e
      pure (p :: t')

/-- The `for target_market, target_apy in capped_markets` walk (lines
129–236) for one position: break on `current_apy >= target_apy`; skip
the position's own market; skip a saturated target (validating the
logged max-allocation amount); cap the move at the source market's
contract liquidity (validating the logged liquidity amount); on a
positive move, record the withdrawal and supply, bump the allocation
tracker and break. -/
def walkCandidates (caps : List MarketCap) (oracle : LiquidityOracle)
    (ratio : FP) (pos : MarketPosition) (posMarket : Market)
    (position_amount_wei : ℕ) (current_apy : ℚ) :
    List (Market × ℚ) → EngState → Except Err EngState
  | [], st => pure st
  | (target_market, target_apy) :: rest, st =>
    if current_apy ≥ target_apy then pure st
    else if pos.unique_key = target_market.unique_key then
      walkCandidates caps oracle ratio pos posMarket position_amount_wei
        current_apy rest st
    else do
      let max_allocation_wei ← maxAllocE ratio target_market.state.supply_assets
      let current_allocation_wei := allocD st.market_allocations target_market.unique_key
      let remaining_allocation_wei : ℤ :=
        (max_allocation_wei : ℤ) - (current_allocation_wei : ℤ)
      if remaining_allocation_wei ≤ 0 then do
        let _ ← TokenAmount.from_wei max_allocation_wei st.dec
        walkCandidates caps oracle ratio pos posMarket position_amount_wei
          current_apy rest st
      else
        let move0 : ℤ := min (position_amount_wei : ℤ) remaining_allocation_wei
        let st := { st with dec := target_market.loan_asset.decimals }
        let liquidity := get_market_liquidity oracle posMarket.unique_key
        do
        let _ ← TokenAmount.fromWeiInt liquidity st.dec
        let move_amount_wei := if move0 > liquidity then liquidity else move0
        if move_amount_wei ≤ 0 then
          walkCandidates caps oracle ratio pos posMarket position_amount_wei
            current_apy rest st
        else do
          let target_cap ←
            match capsFind caps target_market.unique_key with
            | some c => pure c
            | none => throw .keyError
          let move_amount ← TokenAmount.from_wei move_amount_wei.toNat st.dec
          let use_max_shares := decide (move_amount_wei ≥ (position_amount_wei : ℤ))
          let withdrawal ← create_withdrawal pos.unique_key pos posMarket
            move_amount_wei.toNat use_max_shares (some target_cap)
          let ws ← wInsertOrMerge st.withdrawals pos.unique_key
            ⟨withdrawal.amount, withdrawal.shares, pos, target_cap⟩
          let ss ← sInsertOrMerge st.supplies target_market.unique_key
            ⟨move_amount, pos, target_cap, st.dec⟩
          let al := allocBump st.market_allocations target_market.unique_key
            move_amount_wei.toNat
          pure { st with withdrawals := ws, supplies := ss, market_allocations := al }

/-- One iteration of `for pos in group['markets']` (lines 113–126): skip
a position whose market is unseen, validate the logged position amount
(`TokenAmount.from_wei(position_amount_wei, decimals)` with the
group-scoped `decimals` variable), then walk the capped candidates. -/
def processPosition (market_data : List Market) (caps : List MarketCap)
    (oracle : LiquidityOracle) (ratio : FP) (capped : List (Market × ℚ))
    (st : EngState) (pos : MarketPosition) : Except Err EngState :=
  match findMarket market_data pos.unique_key with
  | none => pure st
  | some market => do
    let _ ← TokenAmount.from_wei pos.supply_assets st.dec
    walkCandidates caps oracle ratio pos market pos.supply_assets
      market.state.supply_apy capped st

/-- One iteration of `for group in grouped_positions` (lines 83–236):
reset the group-scoped `decimals`, compute the available markets (skip
the group if none), build the APY-sorted capped candidate list (skip the
group if empty), then process each position. -/
def processGroup (market_data : List Market) (caps : List MarketCap)
    (oracle : LiquidityOracle) (ratio : FP) (st : EngState)
    (group : GroupedPosition) : Except Err EngState :=
  let st := { st with dec := group.loan_token.decimals }
  let available := filter_available_markets group.loan_token.address market_data
  if available.isEmpty then pure st
  else
    let capped := sortDescBy (fun p => p.2)
      ((available.filter (fun m => (capsFind caps m.unique_key).isSome)).map
        (fun m => (m, m.state.supply_apy)))
    if capped.isEmpty then pure st
    else
      group.markets.foldlM (processPosition market_data caps oracle ratio capped) st

/-- Lines 238–265: the final action list — combined withdrawals in
dict-insertion order (their guards `is not None` always hold), then
combined supplies (each with validated zero shares at the recorded
decimals). -/
def finalizeActions (st : EngState) : Except Err ReallocationStrategy := do
  let ws := st.withdrawals.map (fun p =>
    MarketAction.mk p.1 .withdraw p.2.amount p.2.shares p.2.position (some p.2.target_cap))
  let ss ← st.supplies.mapM (fun p => do
    let z ← TokenAmount.from_wei 0 p.2.decimals
    pure (MarketAction.mk p.1 .supply p.2.amount z p.2.position (some p.2.target_cap)))
  pure ⟨ws ++ ss⟩

/-- `SimpleMaxAPYStrategy.calculate_reallocation` (lines 29–265).
`ratio` is `self.max_market_impact_ratio` (the binary64 double `0.05` by
default) and `oracle` the injected contract reader.  An empty (or `None`)
`market_data` short-circuits to an empty plan; otherwise the caps are
fixed, positions grouped, each group processed, and the combined actions
emitted. -/
def calculate_reallocation (ratio : FP) (oracle : LiquidityOracle)
    (positions : List MarketPosition) (market_caps : List MarketCap)
    (market_data : List Market) : Except Err ReallocationStrategy :=
  if market_data.isEmpty then pure ⟨[]⟩
  else do
    let fixed_caps := market_caps.map fixCap
    let grouped ← group_positions_by_loan_asset positions market_data
    let st ← grouped.foldlM (processGroup market_data fixed_caps oracle ratio)
      ⟨[], [], [], 0⟩
    finalizeActions st

/-- The post-call state of the caller's `market_caps` list: the cap-id
fixing loop (lines 56–60) mutates each cap object in place. -/
def capsAfterCall (market_caps : List MarketCap) : List MarketCap :=
  market_caps.map fixCap

/-- Sum of the raw amounts of the Supply actions into market `k` in an
action list. -/
def sumActionsInto (acts : List MarketAction) (k : MarketId) : ℕ :=
  ((acts.filter (fun a => a.action_type == .supply && a.market_id == k)).map
    (fun a => a.amount.raw)).sum

/-- Sum of the raw amounts of the plan's Supply actions into market `k`. -/
def sumSuppliesInto (plan : ReallocationStrategy) (k : MarketId) : ℕ :=
  sumActionsInto plan.actions k

/-- Sum of the recorded raw supply amounts into `k` in the engine's
`supplies_by_market` state. -/
def suppliesSum (l : List (MarketId × SupplyInfo)) (k : MarketId) : ℕ :=
  ((l.filter (fun p => p.1 == k)).map (fun p => p.2.amount.raw)).sum

/-- The unique keys of all positions collected in the groups, in order. -/
def groupsKeys (gs : List GroupedPosition) : List MarketId :=
  (gs.map (fun g => g.markets.map (fun p => p.unique_key))).join

/-- The total of the raw group totals collected so far. -/
def groupsTotal (gs : List GroupedPosition) : ℕ :=
  (gs.map (fun g => g.total_asset.raw)).sum

/-- Well-formedness of the grouping accumulator (claim C8): every
group's loan token is some market's loan asset, its running total keeps
the token's scale, and every collected position comes from the input
list and has a market carrying the group's loan-asset address. -/
def GInv (positions : List MarketPosition) (markets : List Market)
    (gs : List GroupedPosition) : Prop :=
  ∀ g ∈ gs,
    (∃ m0 ∈ markets, g.loan_token = m0.loan_asset) ∧
    g.total_asset.decimals = g.loan_token.decimals ∧
    ∀ p ∈ g.markets, p ∈ positions ∧
      ∃ m, findMarket markets p.unique_key = some m ∧
        m.loan_asset.address = g.loan_token.address

/-- Liquidity-cap invariant of the engine state (claim C4): every
recorded withdrawal is bounded by the contract liquidity of its source
market, which is positive (so markets whose oracle read failed — treated
as liquidity `0` — have no withdrawal entry at all). -/
def LiqInv (oracle : LiquidityOracle) (st : EngState) : Prop :=
  ∀ p ∈ st.withdrawals,
    (p.2.amount.raw : ℤ) ≤ get_market_liquidity oracle p.1 ∧
    0 < get_market_liquidity oracle p.1

/-- Impact-cap invariant of the engine state (claim C1): the recorded
supply sums agree with the allocation tracker, and the tracker never
exceeds any market's (successfully computed) float impact cap. -/
def ImpactInv (ratio : FP) (market_data : List Market) (st : EngState) : Prop :=
  (∀ k, suppliesSum st.supplies k = allocD st.market_allocations k) ∧
  (∀ m ∈ market_data, ∀ v, maxAllocE ratio m.state.supply_assets = .ok v →
    allocD st.market_allocations m.unique_key ≤ v)

/-! ### BlockchainService.rebalance (`src/services/blockchain_service.py`)

The pure parameter-composition part of `rebalance` (lines 64–123): the
action loop that drops actions whose market is missing, the one-sided
check (`ValueError`), the sentinel overwrite of the last `to` tuple, and
the token-address lookup `markets[actions[0].market_id]` (a Python
`dict[...]` that raises `KeyError` on a miss).  The remaining lines only
perform I/O (gas price, building and sending the transaction). -/

/-- `(market_params, assets, shares)` with `market_params` the 5-tuple
`_build_market_params` builds. -/
structure MTuple where
  loan : ℕ
  collateral : ℕ
  oracleAddr : ℕ
  irm : ℕ
  lltv : ℕ
  assets : ℕ
  shares : ℕ
deriving DecidableEq, Repr

/-- `_build_market_params` plus the action's raw amounts
(`to_wei()`; the `if action.amount else 0` defaults are dead, the engine
always sets both fields). -/
def mkTuple (m : Market) (a : MarketAction) : MTuple :=
  ⟨m.loan_asset.address, m.collateral_address, m.oracle_address,
   m.irm_address, m.lltv, a.amount.raw, a.shares.raw⟩

/-- `to_markets_params[-1][1] = 2**256 - 1` (lines 116–118). -/
def setLastAssets : List MTuple → List MTuple
  | [] => []
  | [t] => [{ t with assets := 2 ^ 256 - 1 }]
  | t :: ts => t :: setLastAssets ts

/-- The `from` tuples the loop keeps: withdraw actions whose market is
present, in order. -/
def keptFromTuples (actions : List MarketAction) (markets : List Market) :
    List MTuple :=
  actions.filterMap (fun a =>
    match findMarket markets a.market_id with
    | none => none
    | some m => if a.action_type = .withdraw then some (mkTuple m a) else none)

/-- The `to` tuples the loop keeps: non-withdraw actions whose market is
present, in order (the source's `else` branch). -/
def keptToTuples (actions : List MarketAction) (markets : List Market) :
    List MTuple :=
  actions.filterMap (fun a =>
    match findMarket markets a.market_id with
    | none => none
    | some m => if a.action_type = .withdraw then none else some (mkTuple m a))

/-- The body of the composer's action loop (lines 73–104): an action
whose market is missing is logged and skipped; otherwise its tuple is
appended to the `from` list (withdrawals) or the `to` list (the `else`
branch). -/
def rebalanceStep (markets : List Market) (fb : List MTuple × List MTuple)
    (a : MarketAction) : List MTuple × List MTuple :=
  match findMarket markets a.market_id with
  | none => fb
  | some m =>
    if a.action_type = .withdraw then (fb.1 ++ [mkTuple m a], fb.2)
    else (fb.1, fb.2 ++ [mkTuple m a])

/-- `markets[actions[0].market_id].loan_asset.address` (lines 120–123):
a Python `dict[...]` subscript raising `KeyError` on a miss.  The empty
case is unreachable (the caller has already checked that the loop kept a
withdraw tuple, so `actions` is non-empty). -/
def rebalanceTokenAddr (actions : List MarketAction) (markets : List Market) :
    Except Err ℕ :=
  match actions with
  | [] => throw .emptySide
  | a0 :: _ =>
    match findMarket markets a0.market_id with
    | none => throw .keyError
    | some m0 => pure m0.loan_asset.address

/-- The composition part of `BlockchainService.rebalance`: returns the
`from` tuples, the `to` tuples (last assets overwritten with the
sentinel) and the loan-token address taken from `actions[0]`'s market. -/
def rebalance_params (actions : List MarketAction) (markets : List Market) :
    Except Err (List MTuple × List MTuple × ℕ) :=
  let fromTo := actions.foldl (rebalanceStep markets) ([], [])
  if fromTo.1.isEmpty ∨ fromTo.2.isEmpty then throw .emptySide
  else do
    let addr ← rebalanceTokenAddr actions markets
    pure (fromTo.1, setLastAssets fromTo.2, addr)

/-! ## Theorems -/

section Claims

/-- `fixCap` never changes the `cap` field. -/
lemma fixCap_cap (c : MarketCap) : (fixCap c).cap = c.cap := by
  unfold fixCap; split <;> rfl

/-- `fixCap` is the identity on ids that do not start with `"//"`. -/
lemma fixCap_id (c : MarketCap) (h : c.market_id.take 2 ≠ ['/', '/']) :
    fixCap c = c := by
  unfold fixCap
  split
  · next rest heq => exact absurd (by rw [heq]; rfl) h
  · rfl

/-- C6, counterexample: `calculate_reallocation` does mutate its
`market_caps` input — a cap whose `market_id` starts with `"//"` has its
`market_id` rewritten in place by the cap-fixing loop, so the caps list
after the call differs from the list before it. -/
theorem caps_input_mutated_cex :
    capsAfterCall [⟨['/', '/', 'a', 'b'], 1⟩] ≠ [⟨['/', '/', 'a', 'b'], 1⟩] := by
  decide

/-- C6 (amended): the cap-fixing loop is the only mutation of the
`market_caps` input: every cap keeps its `cap` field, and a cap whose
`market_id` does not start with `"//"` is completely unchanged; only a
`"//"`-prefixed id is rewritten in place (to `"0x" + rest`). -/
theorem caps_input_readonly_amended (market_caps : List MarketCap) :
    List.Forall₂
      (fun c c' => c'.cap = c.cap ∧ (c.market_id.take 2 ≠ ['/', '/'] → c' = c))
      market_caps (capsAfterCall market_caps) := by
  induction market_caps with
  | nil => exact List.Forall₂.nil
  | cons c t ih => exact List.Forall₂.cons ⟨fixCap_cap c, fixCap_id c⟩ ih

/-- C6, witness for the amended theorem at a concrete caps list. -/
theorem caps_input_readonly_amended_witness :
    List.Forall₂
      (fun c c' => c'.cap = c.cap ∧ (c.market_id.take 2 ≠ ['/', '/'] → c' = c))
      [⟨['0', 'x', 'a'], 3⟩] (capsAfterCall [⟨['0', 'x', 'a'], 3⟩]) :=
  caps_input_readonly_amended [⟨['0', 'x', 'a'], 3⟩]

/-- C9: every arithmetic and ordering operation on two `TokenAmount`s of
different decimals fails with the scale-mismatch error
(`_validate_other`), producing no result value. -/
theorem token_ops_scale_mismatch (a b : TokenAmount)
    (h : a.decimals ≠ b.decimals) :
    TokenAmount.add a b = .error .scaleMismatch ∧
    TokenAmount.sub a b = .error .scaleMismatch ∧
    TokenAmount.lt a b = .error .scaleMismatch ∧
    TokenAmount.le a b = .error .scaleMismatch ∧
    TokenAmount.gt a b = .error .scaleMismatch ∧
    TokenAmount.ge a b = .error .scaleMismatch := by
  refine ⟨?_, ?_, ?_, ?_, ?_, ?_⟩ <;>
    simp only [TokenAmount.add, TokenAmount.sub, TokenAmount.lt, TokenAmount.le,
      TokenAmount.gt, TokenAmount.ge, if_pos h] <;> rfl

/-- C9, witness: 1.5 USDC (6 decimals) against 1.5 ETH (18 decimals). -/
theorem token_ops_scale_mismatch_witness :
    TokenAmount.add ⟨1500000, 6⟩ ⟨1500000000000000000, 18⟩ = .error .scaleMismatch ∧
    TokenAmount.sub ⟨1500000, 6⟩ ⟨1500000000000000000, 18⟩ = .error .scaleMismatch ∧
    TokenAmount.lt ⟨1500000, 6⟩ ⟨1500000000000000000, 18⟩ = .error .scaleMismatch ∧
    TokenAmount.le ⟨1500000, 6⟩ ⟨1500000000000000000, 18⟩ = .error .scaleMismatch ∧
    TokenAmount.gt ⟨1500000, 6⟩ ⟨1500000000000000000, 18⟩ = .error .scaleMismatch ∧
    TokenAmount.ge ⟨1500000, 6⟩ ⟨1500000000000000000, 18⟩ = .error .scaleMismatch :=
  token_ops_scale_mismatch ⟨1500000, 6⟩ ⟨1500000000000000000, 18⟩ (by decide)

/-- C10: the dataclass equality on `TokenAmount`s with different decimals
is `false` — totally, with no raised error (its type is `Bool`, not
`Except`) — even when the raw values coincide; the ordering comparison on
the same operands, by contrast, fails with the scale-mismatch error. -/
theorem token_eq_different_decimals (a b : TokenAmount)
    (h : a.decimals ≠ b.decimals) :
    TokenAmount.eqb a b = false ∧ TokenAmount.lt a b = .error .scaleMismatch := by
  constructor
  · simp only [TokenAmount.eqb, Bool.and_eq_false_iff, beq_eq_false_iff_ne, ne_eq]
    right
    exact h
  · simp only [TokenAmount.lt, if_pos h]
    rfl

/-- C10, witness: identical raw value `5`, decimals 6 against 18. -/
theorem token_eq_different_decimals_witness :
    TokenAmount.eqb ⟨5, 6⟩ ⟨5, 18⟩ = false ∧
    TokenAmount.lt ⟨5, 6⟩ ⟨5, 18⟩ = .error .scaleMismatch :=
  token_eq_different_decimals ⟨5, 6⟩ ⟨5, 18⟩ (by decide)

/-- The composer's action loop computes exactly the kept tuples of each
side, appended to the accumulator. -/
lemma rebalance_foldl (markets : List Market) :
    ∀ (actions : List MarketAction) (f t : List MTuple),
      actions.foldl (rebalanceStep markets) (f, t) =
        (f ++ keptFromTuples actions markets, t ++ keptToTuples actions markets) := by
  intro actions
  induction actions with
  | nil => intro f t; simp [keptFromTuples, keptToTuples]
  | cons a rest ih =>
    intro f t
    rw [List.foldl_cons]
    cases h : findMarket markets a.market_id with
    | none =>
      rw [show rebalanceStep markets (f, t) a = (f, t) from by
        unfold rebalanceStep; rw [h]]
      rw [ih]
      simp [keptFromTuples, keptToTuples, List.filterMap_cons, h]
    | some m =>
      by_cases ha : a.action_type = .withdraw
      · rw [show rebalanceStep markets (f, t) a = (f ++ [mkTuple m a], t) from by
          unfold rebalanceStep; rw [h]; exact if_pos ha]
        rw [ih]
        simp [keptFromTuples, keptToTuples, List.filterMap_cons, h, ha]
      · rw [show rebalanceStep markets (f, t) a = (f, t ++ [mkTuple m a]) from by
          unfold rebalanceStep; rw [h]; exact if_neg ha]
        rw [ih]
        simp [keptFromTuples, keptToTuples, List.filterMap_cons, h, ha]

/-- Inversion of a successful `rebalance_params` run: the outputs are the
kept tuples (with the sentinel applied on the `to` side), and both kept
sides are non-empty. -/
lemma rebalance_params_ok_inv (actions : List MarketAction) (markets : List Market)
    (out : List MTuple × List MTuple × ℕ)
    (h : rebalance_params actions markets = .ok out) :
    out.1 = keptFromTuples actions markets ∧
    out.2.1 = setLastAssets (keptToTuples actions markets) ∧
    keptFromTuples actions markets ≠ [] ∧
    keptToTuples actions markets ≠ [] := by
  unfold rebalance_params at h
  rw [rebalance_foldl markets actions [] []] at h
  simp only [List.nil_append] at h
  by_cases he : keptFromTuples actions markets = [] ∨ keptToTuples actions markets = []
  · rw [if_pos (by simpa [List.isEmpty_iff] using he)] at h
    exact absurd h (by simp)
  · rw [if_neg (by simpa [List.isEmpty_iff] using he)] at h
    push_neg at he
    cases hA : rebalanceTokenAddr actions markets with
    | error e => rw [hA] at h; exact absurd h (by simp [Bind.bind, Except.bind, pure, Except.pure])
    | ok addr =>
      rw [hA] at h
      simp only [Bind.bind, Except.bind, pure, Except.pure, Except.ok.injEq] at h
      exact ⟨by rw [← h], by rw [← h], he.1, he.2⟩

/-- `setLastAssets` overwrites exactly the last tuple's assets field. -/
lemma setLastAssets_eq : ∀ (l : List MTuple) (h : l ≠ []),
    setLastAssets l = l.dropLast ++ [{ l.getLast h with assets := 2 ^ 256 - 1 }] := by
  intro l
  induction l with
  | nil => intro h; exact absurd rfl h
  | cons a t ih =>
    intro _
    cases t with
    | nil => rfl
    | cons b t2 =>
      show a :: setLastAssets (b :: t2) = _
      rw [ih (by simp), List.dropLast_cons₂, List.cons_append]
      rfl

/-- `setLastAssets` keeps every tuple but the last. -/
lemma setLastAssets_dropLast (l : List MTuple) :
    (setLastAssets l).dropLast = l.dropLast := by
  cases hl : l with
  | nil => rfl
  | cons a t =>
    rw [setLastAssets_eq (a :: t) (by simp), List.dropLast_concat]

/-- `setLastAssets` of a non-empty list ends in a tuple whose assets are
the sentinel. -/
lemma setLastAssets_last (l : List MTuple) (h : l ≠ []) :
    ∃ init u, setLastAssets l = init ++ [u] ∧ u.assets = 2 ^ 256 - 1 :=
  ⟨l.dropLast, { l.getLast h with assets := 2 ^ 256 - 1 }, setLastAssets_eq l h, rfl⟩

/-- A kept action of the right kind makes the corresponding tuple list
non-empty. -/
lemma keptFromTuples_ne_nil (actions : List MarketAction) (markets : List Market)
    (h : ∃ a ∈ actions, a.action_type = .withdraw ∧ (findMarket markets a.market_id).isSome) :
    keptFromTuples actions markets ≠ [] := by
  obtain ⟨a, ha, hty, hsome⟩ := h
  obtain ⟨m, hm⟩ := Option.isSome_iff_exists.mp hsome
  intro hnil
  have := (List.filterMap_eq_nil_iff.mp hnil) a ha
  rw [hm] at this
  simp [hty] at this

/-- A kept supply action makes the `to` tuple list non-empty. -/
lemma keptToTuples_ne_nil (actions : List MarketAction) (markets : List Market)
    (h : ∃ a ∈ actions, a.action_type = .supply ∧ (findMarket markets a.market_id).isSome) :
    keptToTuples actions markets ≠ [] := by
  obtain ⟨a, ha, hty, hsome⟩ := h
  obtain ⟨m, hm⟩ := Option.isSome_iff_exists.mp hsome
  intro hnil
  have := (List.filterMap_eq_nil_iff.mp hnil) a ha
  rw [hm] at this
  simp [hty] at this

/-- C5, counterexample: the claim fails when the absent market belongs to
the first action.  Three actions — a withdraw on a missing market first,
then a kept withdraw and a kept supply — are composed against a market
set containing only the latter two markets: the loop drops the first
action and both sides are non-empty, but the token-address lookup
`markets[actions[0].market_id]` raises `KeyError` instead of completing. -/
theorem rebalance_first_action_missing_cex :
    rebalance_params
      [⟨['z'], .withdraw, ⟨50, 6⟩, ⟨0, 6⟩, ⟨['z'], 50, 1⟩, none⟩,
       ⟨['a'], .withdraw, ⟨100, 6⟩, ⟨0, 6⟩, ⟨['a'], 100, 1⟩, none⟩,
       ⟨['b'], .supply, ⟨100, 6⟩, ⟨0, 6⟩, ⟨['a'], 100, 1⟩, none⟩]
      [⟨['a'], ⟨10, 6⟩, 1, 2, 3, 4, ⟨0, 0⟩⟩,
       ⟨['b'], ⟨10, 6⟩, 5, 6, 7, 8, ⟨0, 0⟩⟩] = .error .keyError := by
  decide

/-- C5 (amended): with at least one withdraw and at least one supply
whose markets are present, every action whose market is absent from the
mapping is dropped and composition completes without raising — provided
the first action's market is present; when the first action's market is
absent, the token-address lookup `markets[actions[0].market_id]` raises
`KeyError` (see the counterexample). -/
theorem rebalance_missing_market_dropped (actions : List MarketAction)
    (markets : List Market)
    (h0 : ∀ a0, actions.head? = some a0 → (findMarket markets a0.market_id).isSome)
    (hw : ∃ a ∈ actions, a.action_type = .withdraw ∧ (findMarket markets a.market_id).isSome)
    (hs : ∃ a ∈ actions, a.action_type = .supply ∧ (findMarket markets a.market_id).isSome) :
    ∃ addr, rebalance_params actions markets =
      .ok (keptFromTuples actions markets,
           setLastAssets (keptToTuples actions markets), addr) := by
  cases actions with
  | nil => exact absurd hw (by simp)
  | cons a0 rest =>
    have hf := keptFromTuples_ne_nil (a0 :: rest) markets hw
    have ht := keptToTuples_ne_nil (a0 :: rest) markets hs
    obtain ⟨m0, hm0⟩ := Option.isSome_iff_exists.mp (h0 a0 rfl)
    have hta : rebalanceTokenAddr (a0 :: rest) markets = pure m0.loan_asset.address := by
      show (match findMarket markets a0.market_id with
            | none => throw Err.keyError
            | some m0 => pure m0.loan_asset.address : Except Err ℕ) = _
      rw [hm0]
    refine ⟨m0.loan_asset.address, ?_⟩
    unfold rebalance_params
    rw [rebalance_foldl markets (a0 :: rest) [] []]
    simp only [List.nil_append]
    rw [if_neg (by simp [List.isEmpty_iff, hf, ht]), hta]
    rfl

/-- C5, witness: first action's market present, middle action's market
absent — the absent supply is dropped, composition succeeds. -/
theorem rebalance_missing_market_dropped_witness :
    ∃ addr, rebalance_params
      [⟨['a'], .withdraw, ⟨100, 6⟩, ⟨0, 6⟩, ⟨['a'], 100, 1⟩, none⟩,
       ⟨['z'], .supply, ⟨50, 6⟩, ⟨0, 6⟩, ⟨['a'], 100, 1⟩, none⟩,
       ⟨['b'], .supply, ⟨100, 6⟩, ⟨0, 6⟩, ⟨['a'], 100, 1⟩, none⟩]
      [⟨['a'], ⟨10, 6⟩, 1, 2, 3, 4, ⟨0, 0⟩⟩,
       ⟨['b'], ⟨10, 6⟩, 5, 6, 7, 8, ⟨0, 0⟩⟩] =
      .ok (keptFromTuples
             [⟨['a'], .withdraw, ⟨100, 6⟩, ⟨0, 6⟩, ⟨['a'], 100, 1⟩, none⟩,
              ⟨['z'], .supply, ⟨50, 6⟩, ⟨0, 6⟩, ⟨['a'], 100, 1⟩, none⟩,
              ⟨['b'], .supply, ⟨100, 6⟩, ⟨0, 6⟩, ⟨['a'], 100, 1⟩, none⟩]
             [⟨['a'], ⟨10, 6⟩, 1, 2, 3, 4, ⟨0, 0⟩⟩,
              ⟨['b'], ⟨10, 6⟩, 5, 6, 7, 8, ⟨0, 0⟩⟩],
           setLastAssets (keptToTuples
             [⟨['a'], .withdraw, ⟨100, 6⟩, ⟨0, 6⟩, ⟨['a'], 100, 1⟩, none⟩,
              ⟨['z'], .supply, ⟨50, 6⟩, ⟨0, 6⟩, ⟨['a'], 100, 1⟩, none⟩,
              ⟨['b'], .supply, ⟨100, 6⟩, ⟨0, 6⟩, ⟨['a'], 100, 1⟩, none⟩]
             [⟨['a'], ⟨10, 6⟩, 1, 2, 3, 4, ⟨0, 0⟩⟩,
              ⟨['b'], ⟨10, 6⟩, 5, 6, 7, 8, ⟨0, 0⟩⟩]), addr) :=
  rebalance_missing_market_dropped _ _
    (by intro a0 h; cases h; decide)
    ⟨⟨['a'], .withdraw, ⟨100, 6⟩, ⟨0, 6⟩, ⟨['a'], 100, 1⟩, none⟩,
      by simp, rfl, by decide⟩
    ⟨⟨['b'], .supply, ⟨100, 6⟩, ⟨0, 6⟩, ⟨['a'], 100, 1⟩, none⟩,
      by simp, rfl, by decide⟩

/-- C7: whenever the composer succeeds (which requires at least one kept
withdraw and one kept supply), the `to` array ends in a tuple whose
assets field is the maximum representable raw value `2^256 - 1`
(overwriting the engine's computed amount), while every earlier `to`
tuple keeps its computed amount. -/
theorem rebalance_sentinel (actions : List MarketAction) (markets : List Market)
    (out : List MTuple × List MTuple × ℕ)
    (h : rebalance_params actions markets = .ok out) :
    ∃ last, out.2.1.getLast? = some last ∧ last.assets = 2 ^ 256 - 1 ∧
      out.2.1.dropLast = (keptToTuples actions markets).dropLast := by
  obtain ⟨-, hto, -, htne⟩ := rebalance_params_ok_inv actions markets out h
  obtain ⟨init, u, hs, hu⟩ := setLastAssets_last _ htne
  refine ⟨u, ?_, hu, ?_⟩
  · rw [hto, hs, List.getLast?_concat]
  · rw [hto, setLastAssets_dropLast]

/-- C7, witness (Scenario D): one Withdraw(1000) and Supplies of 400 and
600 — the composed `to` array's last entry carries the sentinel
`2^256 - 1`, not 600, and the earlier entry keeps its computed 400. -/
theorem rebalance_sentinel_witness :
    ∃ last,
      ([⟨10, 21, 22, 23, 5, 400, 0⟩,
        ⟨10, 31, 32, 33, 5, 2 ^ 256 - 1, 0⟩] : List MTuple).getLast? = some last ∧
      last.assets = 2 ^ 256 - 1 ∧
      ([⟨10, 21, 22, 23, 5, 400, 0⟩,
        ⟨10, 31, 32, 33, 5, 2 ^ 256 - 1, 0⟩] : List MTuple).dropLast =
        (keptToTuples
          [⟨['m', '1'], .withdraw, ⟨1000, 6⟩, ⟨0, 6⟩, ⟨['m', '1'], 1000, 1⟩, none⟩,
           ⟨['m', '2'], .supply, ⟨400, 6⟩, ⟨0, 6⟩, ⟨['m', '1'], 1000, 1⟩, none⟩,
           ⟨['m', '3'], .supply, ⟨600, 6⟩, ⟨0, 6⟩, ⟨['m', '1'], 1000, 1⟩, none⟩]
          [⟨['m', '1'], ⟨10, 6⟩, 11, 12, 13, 5, ⟨0, 0⟩⟩,
           ⟨['m', '2'], ⟨10, 6⟩, 21, 22, 23, 5, ⟨0, 0⟩⟩,
           ⟨['m', '3'], ⟨10, 6⟩, 31, 32, 33, 5, ⟨0, 0⟩⟩]).dropLast :=
  rebalance_sentinel
    [⟨['m', '1'], .withdraw, ⟨1000, 6⟩, ⟨0, 6⟩, ⟨['m', '1'], 1000, 1⟩, none⟩,
     ⟨['m', '2'], .supply, ⟨400, 6⟩, ⟨0, 6⟩, ⟨['m', '1'], 1000, 1⟩, none⟩,
     ⟨['m', '3'], .supply, ⟨600, 6⟩, ⟨0, 6⟩, ⟨['m', '1'], 1000, 1⟩, none⟩]
    [⟨['m', '1'], ⟨10, 6⟩, 11, 12, 13, 5, ⟨0, 0⟩⟩,
     ⟨['m', '2'], ⟨10, 6⟩, 21, 22, 23, 5, ⟨0, 0⟩⟩,
     ⟨['m', '3'], ⟨10, 6⟩, 31, 32, 33, 5, ⟨0, 0⟩⟩]
    ([⟨10, 11, 12, 13, 5, 1000, 0⟩],
     [⟨10, 21, 22, 23, 5, 400, 0⟩, ⟨10, 31, 32, 33, 5, 2 ^ 256 - 1, 0⟩], 10)
    (by decide)

/-! ### Decimal rendering/parsing lemmas (claims C2, C3) -/

/-- The digit characters `'0'..'9'` decode, classify and differ from
`'.'` as expected. -/
lemma chr_facts (d : ℕ) (h : d < 10) :
    (Char.ofNat (d + 48)).toNat - 48 = d ∧ (Char.ofNat (d + 48)).isDigit = true ∧
    Char.ofNat (d + 48) ≠ '.' := by
  interval_cases d <;> exact ⟨rfl, rfl, by decide⟩

/-- The fuel-based digit list agrees with `Nat.digits 10`. -/
lemma digitsLE_eq : ∀ (v f : ℕ), v ≤ f → digitsLE f v = Nat.digits 10 v := by
  intro v
  induction v using Nat.strong_induction_on with
  | _ v ih =>
    intro f hf
    cases v with
    | zero => cases f <;> simp [digitsLE]
    | succ n =>
      cases f with
      | zero => omega
      | succ g =>
        have hdiv : (n + 1) / 10 < n + 1 := Nat.div_lt_self (Nat.succ_pos n) (by norm_num)
        show (n + 1) % 10 :: digitsLE g ((n + 1) / 10) = _
        rw [ih ((n + 1) / 10) hdiv g (by omega),
          Nat.digits_def' (by norm_num : (1 : ℕ) < 10) (Nat.succ_pos n)]

/-- `digitChars` through `Nat.digits`. -/
lemma digitChars_eq (v : ℕ) :
    digitChars v = (Nat.digits 10 v).reverse.map (fun d => Char.ofNat (d + 48)) := by
  unfold digitChars
  rw [digitsLE_eq v v le_rfl]

/-- Decoding a most-significant-first digit rendering. -/
lemma foldl_rev_map_digits (L : List ℕ) (hL : ∀ d ∈ L, d < 10) :
    ∀ acc, (L.reverse.map (fun d => Char.ofNat (d + 48))).foldl
        (fun acc c => acc * 10 + (c.toNat - 48)) acc =
      acc * 10 ^ L.length + Nat.ofDigits 10 L := by
  induction L with
  | nil => intro acc; simp [Nat.ofDigits]
  | cons d t ih =>
    intro acc
    rw [List.reverse_cons, List.map_append, List.foldl_append,
      ih (fun x hx => hL x (List.mem_cons_of_mem _ hx)) acc]
    simp only [List.map_cons, List.map_nil, List.foldl_cons, List.foldl_nil]
    rw [(chr_facts d (hL d (List.mem_cons_self d t))).1, Nat.ofDigits_cons]
    simp only [List.length_cons, pow_succ]
    ring

/-- `digitsToNat` inverts `digitChars`. -/
lemma digitsToNat_digitChars (v : ℕ) : digitsToNat (digitChars v) = v := by
  unfold digitsToNat
  rw [digitChars_eq,
    foldl_rev_map_digits _ (fun d hd => Nat.digits_lt_base (by norm_num) hd) 0]
  simp [Nat.ofDigits_digits]

/-- `digitsToNat` inverts `intRender`. -/
lemma digitsToNat_intRender (v : ℕ) : digitsToNat (intRender v) = v := by
  unfold intRender
  split
  · next h => rw [h]; rfl
  · exact digitsToNat_digitChars v

/-- Leading `'0'`s do not change the decoded value. -/
lemma digitsToNat_replicate_zero (z : ℕ) (s : List Char) :
    digitsToNat (List.replicate z '0' ++ s) = digitsToNat s := by
  unfold digitsToNat
  rw [List.foldl_append]
  congr 1
  induction z with
  | zero => rfl
  | succ n ih => rw [List.replicate_succ, List.foldl_cons]; exact ih

/-- `digitsToNat` inverts `fracRender`. -/
lemma digitsToNat_fracRender (p v : ℕ) : digitsToNat (fracRender p v) = v := by
  unfold fracRender
  rw [digitsToNat_replicate_zero, digitsToNat_digitChars]

/-- A value below `10 ^ p` has at most `p` digit characters. -/
lemma digitChars_length_le (v p : ℕ) (h : v < 10 ^ p) :
    (digitChars v).length ≤ p := by
  rw [digitChars_eq]
  simp only [List.length_map, List.length_reverse]
  by_contra hc
  push_neg at hc
  rcases Nat.eq_zero_or_pos v with rfl | hv
  · simp at hc
  · have h1 : 10 ^ (Nat.digits 10 v).length ≤ 10 * v :=
      Nat.base_pow_length_digits_le 10 v (by norm_num) (by omega)
    have h2 : 10 ^ (p + 1) ≤ 10 ^ (Nat.digits 10 v).length :=
      Nat.pow_le_pow_right (by norm_num) (by omega)
    rw [pow_succ] at h2
    have := le_trans h2 h1
    omega

/-- `fracRender p v` has exactly `p` characters when `v < 10 ^ p`. -/
lemma fracRender_length (p v : ℕ) (h : v < 10 ^ p) :
    (fracRender p v).length = p := by
  unfold fracRender
  rw [List.length_append, List.length_replicate]
  have := digitChars_length_le v p h
  omega

/-- Every character of `digitChars` is a digit and not a dot. -/
lemma digitChars_all (v : ℕ) :
    ∀ c ∈ digitChars v, c.isDigit = true ∧ c ≠ '.' := by
  intro c hc
  rw [digitChars_eq] at hc
  simp only [List.mem_map, List.mem_reverse] at hc
  obtain ⟨d, hd, rfl⟩ := hc
  have hlt := Nat.digits_lt_base (by norm_num) hd
  exact ⟨(chr_facts d hlt).2.1, (chr_facts d hlt).2.2⟩

/-- Every character of `intRender` is a digit and not a dot. -/
lemma intRender_all (v : ℕ) :
    ∀ c ∈ intRender v, c.isDigit = true ∧ c ≠ '.' := by
  unfold intRender
  split
  · intro c hc
    simp only [List.mem_singleton] at hc
    subst hc
    exact ⟨rfl, by decide⟩
  · exact digitChars_all v

/-- Every character of `fracRender` is a digit and not a dot. -/
lemma fracRender_all (p v : ℕ) :
    ∀ c ∈ fracRender p v, c.isDigit = true ∧ c ≠ '.' := by
  unfold fracRender
  intro c hc
  rcases List.mem_append.mp hc with h | h
  · rw [List.eq_of_mem_replicate h]
    exact ⟨rfl, by decide⟩
  · exact digitChars_all v c h

/-- `intRender` is never empty. -/
lemma intRender_ne_nil (v : ℕ) : intRender v ≠ [] := by
  unfold intRender
  split
  · simp
  · next h =>
    rw [digitChars_eq]
    simpa using Nat.digits_ne_nil_iff_ne_zero.mpr h

/-- A dot-free string does not `contains` a dot. -/
lemma contains_dot_false (s : List Char) (h : ∀ c ∈ s, c ≠ '.') :
    s.contains '.' = false := by
  cases hc : s.contains '.'
  · rfl
  · exact absurd rfl (h '.' (List.elem_iff.mp hc))

/-- A string with a dot `contains` it. -/
lemma contains_dot_true (s : List Char) (h : ('.' : Char) ∈ s) :
    s.contains '.' = true :=
  List.elem_iff.mpr h

/-- Evaluation of `from_units.parseTail` on digit-only parts. -/
lemma parseTail_eval (dec : ℕ) (A R B : List Char)
    (hA : ∀ c ∈ A, c.isDigit = true) (hB : ∀ c ∈ B, c.isDigit = true)
    (hR : R.length = B.length) (hne : A ≠ [])
    (hwei : digitsToNat A * 10 ^ dec + digitsToNat B * 10 ^ (dec - B.length) ≤
      TokenAmount.MAX_UINT256)
    (hdec : dec ≤ 77) :
    from_units.parseTail dec A R B =
      .ok ⟨digitsToNat A * 10 ^ dec + digitsToNat B * 10 ^ (dec - B.length), dec⟩ := by
  unfold from_units.parseTail
  rw [if_neg (not_not_intro
    ⟨List.all_eq_true.mpr hA, List.all_eq_true.mpr hB, hR, Or.inl hne⟩)]
  rw [if_neg (by simpa [TokenAmount.MAX_UINT256] using hwei)]
  rw [if_neg (by simpa [TokenAmount.MAX_DECIMALS] using hdec)]
  rfl

/-- Splitting the rendering at its dot (`p > 0`). -/
lemma renderFixed_pos (p scaled : ℕ) (hp : 0 < p) :
    renderFixed p scaled =
      intRender (scaled / 10 ^ p) ++ '.' :: fracRender p (scaled % 10 ^ p) := by
  unfold renderFixed
  rw [if_neg (by omega)]

/-- Parsing the fixed-point rendering of `scaled / 10 ^ p` at `dec ≥ p`
decimals yields the raw value `scaled * 10 ^ (dec - p)`. -/
lemma from_units_render (scaled p dec : ℕ) (hp : p ≤ dec)
    (hb : scaled * 10 ^ (dec - p) ≤ TokenAmount.MAX_UINT256) (hdec : dec ≤ 77) :
    from_units (renderFixed p scaled) dec = .ok ⟨scaled * 10 ^ (dec - p), dec⟩ := by
  rcases Nat.eq_zero_or_pos p with rfl | hppos
  · -- no decimal point is produced and the whole string is the integer part
    have hs : renderFixed 0 scaled = intRender scaled := by
      unfold renderFixed
      simp [Nat.div_one]
    rw [hs]
    unfold from_units
    have hdf : ∀ c ∈ intRender scaled, c ≠ '.' :=
      fun c hc => (intRender_all scaled c hc).2
    have htw : (intRender scaled).takeWhile (fun c => decide (c ≠ '.')) =
        intRender scaled :=
      List.takeWhile_eq_self_iff.mpr (fun c hc => by simpa using hdf c hc)
    have hdw : (intRender scaled).dropWhile (fun c => decide (c ≠ '.')) = [] := by
      have happ := List.takeWhile_append_dropWhile
        (p := fun c => decide (c ≠ '.')) (l := intRender scaled)
      rw [htw] at happ
      have hlen := congrArg List.length happ
      rw [List.length_append] at hlen
      exact List.eq_nil_of_length_eq_zero (by omega)
    have hval : digitsToNat (intRender scaled) * 10 ^ dec +
        digitsToNat ([] : List Char) * 10 ^ (dec - ([] : List Char).length) =
        scaled * 10 ^ (dec - 0) := by
      simp [digitsToNat_intRender, show digitsToNat ([] : List Char) = 0 from rfl]
    rw [contains_dot_false _ hdf]
    simp only [Bool.false_eq_true, if_false, htw, hdw, List.drop_nil,
      List.takeWhile_nil]
    rw [parseTail_eval dec (intRender scaled) [] []
      (fun c hc => (intRender_all scaled c hc).1) (by simp) rfl
      (intRender_ne_nil scaled)
      (by rw [hval]; exact hb) hdec]
    rw [hval]
  · -- the string splits as integer part, dot, fractional part
    have hmod : scaled % 10 ^ p < 10 ^ p := Nat.mod_lt _ (pow_pos (by norm_num) p)
    have hlenB : (fracRender p (scaled % 10 ^ p)).length = p :=
      fracRender_length p _ hmod
    set A := intRender (scaled / 10 ^ p) with hA_def
    set B := fracRender p (scaled % 10 ^ p) with hB_def
    have hAdf : ∀ c ∈ A, c ≠ '.' := fun c hc => (intRender_all _ c hc).2
    have hBdf : ∀ c ∈ B, c ≠ '.' := fun c hc => (fracRender_all _ _ c hc).2
    rw [renderFixed_pos p scaled hppos, ← hA_def, ← hB_def]
    unfold from_units
    have htw : (A ++ '.' :: B).takeWhile (fun c => decide (c ≠ '.')) = A := by
      rw [List.takeWhile_append_of_pos (fun c hc => by simpa using hAdf c hc),
        List.takeWhile_cons_of_neg (by simp)]
      simp
    have hdw : (A ++ '.' :: B).dropWhile (fun c => decide (c ≠ '.')) = '.' :: B := by
      rw [List.dropWhile_append_of_pos (fun c hc => by simpa using hAdf c hc),
        List.dropWhile_cons_of_neg (by simp)]
    have hfw : B.takeWhile (fun c => decide (c ≠ '.')) = B :=
      List.takeWhile_eq_self_iff.mpr (fun c hc => by simpa using hBdf c hc)
    rw [contains_dot_true _ (by simp)]
    simp only [if_true, htw, hdw, List.drop_succ_cons, List.drop_zero, hfw]
    rw [if_neg (by rw [hlenB]; omega)]
    have key : digitsToNat A * 10 ^ dec + digitsToNat B * 10 ^ (dec - B.length) =
        scaled * 10 ^ (dec - p) := by
      rw [hA_def, hB_def, digitsToNat_intRender, digitsToNat_fracRender, hlenB]
      conv_rhs => rw [← Nat.div_add_mod scaled (10 ^ p)]
      rw [show (10 : ℕ) ^ dec = 10 ^ p * 10 ^ (dec - p) by
        rw [← pow_add]; congr 1; omega]
      ring
    rw [parseTail_eval dec A B B
      (fun c hc => (intRender_all _ c hc).1)
      (fun c hc => (fracRender_all _ _ c hc).1)
      rfl (intRender_ne_nil _) (by rw [key]; exact hb) hdec]
    rw [key]

/-- Rounding by 1 is the identity. -/
lemma rhe_one (n : ℕ) : rhe n 1 = n := by
  unfold rhe
  simp [Nat.mod_one, Nat.div_one]

/-- Round-half-even of `n / m` never exceeds `n`. -/
lemma rhe_le (n m : ℕ) (hm : 0 < m) : rhe n m ≤ n := by
  unfold rhe
  have hqm : m * (n / m) + n % m = n := Nat.div_add_mod n m
  have hrm : n % m < m := Nat.mod_lt n hm
  split
  · next hcond =>
    have h2r : m ≤ 2 * (n % m) := by rcases hcond with h | ⟨h, -⟩ <;> omega
    have hq : n / m ≤ m * (n / m) := Nat.le_mul_of_pos_left _ hm
    omega
  · exact Nat.div_le_self n m

/-- Round-half-even is within half a unit: `|rhe n m * m - n| * 2 ≤ m`,
stated as two linear bounds. -/
lemma rhe_err (n m : ℕ) (hm : 0 < m) :
    -(m : ℤ) ≤ ((rhe n m : ℤ) * m - n) * 2 ∧ ((rhe n m : ℤ) * m - n) * 2 ≤ m := by
  have hqm : m * (n / m) + n % m = n := Nat.div_add_mod n m
  have hqmZ : (m : ℤ) * ((n / m : ℕ) : ℤ) + ((n % m : ℕ) : ℤ) = (n : ℤ) := by
    exact_mod_cast hqm
  have hrm : n % m < m := Nat.mod_lt n hm
  unfold rhe
  split
  · next hcond =>
    have h2r : m ≤ 2 * (n % m) := by rcases hcond with h | ⟨h, -⟩ <;> omega
    have heq : ((n / m + 1 : ℕ) : ℤ) * m - n = (m : ℤ) - ((n % m : ℕ) : ℤ) := by
      rw [Nat.cast_add, Nat.cast_one]
      linear_combination hqmZ
    rw [heq]
    constructor <;> omega
  · next hcond =>
    have h2r : 2 * (n % m) ≤ m := by omega
    have heq : ((n / m : ℕ) : ℤ) * m - n = -((n % m : ℕ) : ℤ) := by
      linear_combination hqmZ
    rw [heq]
    omega

/-- Evaluating `to_units` below the precision bound. -/
lemma to_units_eval (raw d p : ℕ) (hp : p ≤ 77) :
    to_units ⟨raw, d⟩ p = .ok (renderFixed p
      (if p ≤ d then rhe raw (10 ^ (d - p)) else raw * 10 ^ (p - d))) := by
  unfold to_units
  rw [if_neg (by simp only [TokenAmount.MAX_DECIMALS]; omega)]
  rfl

/-- C3: for every valid `(raw, scale)`, constructing the amount from the
raw integer, rendering it at full precision and parsing the rendering
back at the same scale is lossless: the reconstructed amount carries
exactly the original `raw`. -/
theorem token_roundtrip (raw d : ℕ) (h1 : raw ≤ TokenAmount.MAX_UINT256)
    (h2 : d ≤ 77) :
    TokenAmount.from_wei raw d = .ok ⟨raw, d⟩ ∧
    ∃ s, to_units ⟨raw, d⟩ d = .ok s ∧ from_units s d = .ok ⟨raw, d⟩ := by
  refine ⟨?_, ⟨renderFixed d raw, ?_, ?_⟩⟩
  · unfold TokenAmount.from_wei
    rw [if_neg (not_lt.mpr h1),
      if_neg (by simp only [TokenAmount.MAX_DECIMALS]; omega)]
    rfl
  · rw [to_units_eval raw d d (by omega), if_pos le_rfl, Nat.sub_self,
      pow_zero, rhe_one]
  · have := from_units_render raw d d le_rfl (by simpa using h1) h2
    simpa using this

/-- C3, witness at `raw = 123456789`, `scale = 6`. -/
theorem token_roundtrip_witness :
    TokenAmount.from_wei 123456789 6 = .ok ⟨123456789, 6⟩ ∧
    ∃ s, to_units ⟨123456789, 6⟩ 6 = .ok s ∧
      from_units s 6 = .ok ⟨123456789, 6⟩ :=
  token_roundtrip 123456789 6 (by decide) (by decide)

/-- C2, counterexample: `to_units` does not truncate toward zero — on raw
`1234567` at 6 decimals with precision 4 it returns `"1.2346"` (the
rounded-to-nearest value, which the repository's own test
`test_to_units_with_different_precision` asserts), while the spec's
round-toward-zero truncation produces `"1.2345"`. -/
theorem to_units_truncation_cex :
    to_units ⟨1234567, 6⟩ 4 = .ok ['1', '.', '2', '3', '4', '6'] ∧
    to_units_truncating ⟨1234567, 6⟩ 4 = .ok ['1', '.', '2', '3', '4', '5'] ∧
    to_units ⟨1234567, 6⟩ 4 ≠ to_units_truncating ⟨1234567, 6⟩ 4 := by
  decide

/-- C2 (amended): `to_units` performs exact decimal division and renders
the multiple of `10 ^ (-precision)` nearest to the exact value (ties to
even, the `Decimal` formatting default) — not round-toward-zero
truncation: the rendered string parses back to a value within half a
final-digit unit of `raw / 10 ^ decimals`, and is exactly the value
(zero-padded) whenever `precision ≥ decimals`. -/
theorem to_units_rounds_to_nearest (raw d p : ℕ)
    (hraw : raw ≤ TokenAmount.MAX_UINT256) (hp : p ≤ 77)
    (hcase : p ≤ d ∨ raw * 10 ^ (p - d) ≤ TokenAmount.MAX_UINT256) :
    ∃ s w, to_units ⟨raw, d⟩ p = .ok s ∧ from_units s p = .ok ⟨w, p⟩ ∧
      |(w : ℚ) / 10 ^ p - (raw : ℚ) / 10 ^ d| ≤ 1 / (2 * 10 ^ p) ∧
      (d ≤ p → (w : ℚ) / 10 ^ p = (raw : ℚ) / 10 ^ d) := by
  by_cases hpd : p ≤ d
  · have hMpos : 0 < 10 ^ (d - p) := pow_pos (by norm_num) _
    have hwle : rhe raw (10 ^ (d - p)) ≤ raw := rhe_le raw _ hMpos
    refine ⟨renderFixed p (rhe raw (10 ^ (d - p))), rhe raw (10 ^ (d - p)),
      ?_, ?_, ?_, ?_⟩
    · rw [to_units_eval raw d p hp, if_pos hpd]
    · have := from_units_render (rhe raw (10 ^ (d - p))) p p le_rfl
        (by simpa using le_trans hwle hraw) hp
      simpa using this
    · obtain ⟨hlo, hhi⟩ := rhe_err raw (10 ^ (d - p)) hMpos
      have hdeq : (10 : ℚ) ^ d = 10 ^ p * 10 ^ (d - p) := by
        rw [← pow_add]
        congr 1
        omega
      have hdiff : (rhe raw (10 ^ (d - p)) : ℚ) / 10 ^ p - (raw : ℚ) / 10 ^ d =
          (((rhe raw (10 ^ (d - p)) : ℤ) * (10 ^ (d - p) : ℕ) - raw : ℤ) : ℚ) /
            10 ^ d := by
        rw [hdeq]
        push_cast
        field_simp
        ring
      rw [hdiff, abs_div, abs_of_nonneg (by positivity : (0 : ℚ) ≤ 10 ^ d),
        div_le_div_iff (by positivity) (by positivity)]
      have habs : |(rhe raw (10 ^ (d - p)) : ℤ) * (10 ^ (d - p) : ℕ) - raw| * 2 ≤
          ((10 ^ (d - p) : ℕ) : ℤ) := by
        have h2 := abs_le.mpr ⟨hlo, hhi⟩
        calc |(rhe raw (10 ^ (d - p)) : ℤ) * (10 ^ (d - p) : ℕ) - raw| * 2
            = |((rhe raw (10 ^ (d - p)) : ℤ) * (10 ^ (d - p) : ℕ) - raw) * 2| := by
              rw [abs_mul]
              norm_num
          _ ≤ _ := h2
      have habsQ : |(((rhe raw (10 ^ (d - p)) : ℤ) * (10 ^ (d - p) : ℕ) -
          raw : ℤ) : ℚ)| * 2 ≤ ((10 ^ (d - p) : ℕ) : ℚ) := by
        rw [← Int.cast_abs]
        exact_mod_cast habs
      have hpow : (0 : ℚ) ≤ 10 ^ p := by positivity
      calc |(((rhe raw (10 ^ (d - p)) : ℤ) * (10 ^ (d - p) : ℕ) - raw : ℤ) : ℚ)| *
            (2 * 10 ^ p)
          = (|(((rhe raw (10 ^ (d - p)) : ℤ) * (10 ^ (d - p) : ℕ) -
              raw : ℤ) : ℚ)| * 2) * 10 ^ p := by ring
        _ ≤ ((10 ^ (d - p) : ℕ) : ℚ) * 10 ^ p := by
            exact mul_le_mul_of_nonneg_right habsQ hpow
        _ = 1 * 10 ^ d := by
            rw [hdeq]
            push_cast
            ring
    · intro hdp
      have hpd' : p = d := le_antisymm hpd hdp
      subst hpd'
      rw [Nat.sub_self, pow_zero, rhe_one]
  · have hble := hcase.resolve_left hpd
    have hexact : ((raw * 10 ^ (p - d) : ℕ) : ℚ) / 10 ^ p = (raw : ℚ) / 10 ^ d := by
      push_cast
      rw [show (10 : ℚ) ^ p = 10 ^ d * 10 ^ (p - d) by
        rw [← pow_add]; congr 1; omega]
      rw [mul_comm ((10 : ℚ) ^ d) _, ← div_div]
      rw [mul_div_assoc, div_self (by positivity : ((10 : ℚ) ^ (p - d)) ≠ 0),
        mul_one]
    refine ⟨renderFixed p (raw * 10 ^ (p - d)), raw * 10 ^ (p - d),
      ?_, ?_, ?_, ?_⟩
    · rw [to_units_eval raw d p hp, if_neg hpd]
    · have := from_units_render (raw * 10 ^ (p - d)) p p le_rfl
        (by simpa using hble) hp
      simpa using this
    · rw [hexact]
      simp only [sub_self, abs_zero]
      positivity
    · intro _
      exact hexact

/-- C2, witness for the amended theorem at the counterexample's input
`raw = 1234567`, decimals 6, precision 4. -/
theorem to_units_rounds_to_nearest_witness :
    ∃ s w, to_units ⟨1234567, 6⟩ 4 = .ok s ∧ from_units s 4 = .ok ⟨w, 4⟩ ∧
      |(w : ℚ) / 10 ^ 4 - (1234567 : ℚ) / 10 ^ 6| ≤ 1 / (2 * 10 ^ 4) ∧
      (6 ≤ 4 → (w : ℚ) / 10 ^ 4 = (1234567 : ℚ) / 10 ^ 6) :=
  to_units_rounds_to_nearest 1234567 6 4 (by decide) (by decide)
    (Or.inl (by decide))

/-! ### Engine lemmas (claims C1, C4, C8) -/

/-- A successful `TokenAmount.add` sums the raw amounts (and keeps the
left operand's decimals). -/
lemma add_ok_raw {a b c : TokenAmount} (h : TokenAmount.add a b = .ok c) :
    c.raw = a.raw + b.raw ∧ c.decimals = a.decimals := by
  unfold TokenAmount.add at h
  split at h
  · exact absurd h (by simp)
  · split at h
    · exact absurd h (by simp)
    · simp only [pure, Except.pure, Except.ok.injEq] at h
      rw [← h]
      exact ⟨rfl, rfl⟩

/-- A successful `TokenAmount.from_wei` returns exactly its arguments. -/
lemma from_wei_ok {w d : ℕ} {t : TokenAmount}
    (h : TokenAmount.from_wei w d = .ok t) : t.raw = w ∧ t.decimals = d := by
  unfold TokenAmount.from_wei at h
  split at h
  · exact absurd h (by simp)
  · split at h
    · exact absurd h (by simp)
    · simp only [pure, Except.pure, Except.ok.injEq] at h
      rw [← h]
      exact ⟨rfl, rfl⟩

/-- `suppliesSum` unfolded on a cons. -/
lemma suppliesSum_cons (p : MarketId × SupplyInfo) (t : List (MarketId × SupplyInfo))
    (k' : MarketId) :
    suppliesSum (p :: t) k' =
      (if p.1 = k' then p.2.amount.raw else 0) + suppliesSum t k' := by
  by_cases hk : p.1 = k'
  · simp [suppliesSum, List.filter_cons, hk]
  · simp [suppliesSum, List.filter_cons, beq_eq_false_iff_ne.mpr hk, hk]

/-- `allocD` unfolded on a cons. -/
lemma allocD_cons (p : MarketId × ℕ) (t : List (MarketId × ℕ)) (k' : MarketId) :
    allocD (p :: t) k' = if p.1 = k' then p.2 else allocD t k' := by
  by_cases hk : p.1 = k'
  · simp [allocD, List.find?_cons, beq_iff_eq.mpr hk, hk]
  · simp [allocD, List.find?_cons, beq_eq_false_iff_ne.mpr hk, hk]

/-- Bumping the allocation tracker at `k` adds `v` there. -/
lemma allocD_bump_self (l : List (MarketId × ℕ)) (k : MarketId) (v : ℕ) :
    allocD (allocBump l k v) k = allocD l k + v := by
  induction l with
  | nil => simp [allocBump, allocD]
  | cons p t ih =>
    by_cases hk : p.1 = k
    · subst hk
      simp [allocBump, allocD_cons]
    · simp only [allocBump, if_neg hk, allocD_cons, if_neg hk]
      exact ih

/-- Bumping the allocation tracker at `k` leaves other keys unchanged. -/
lemma allocD_bump_other (l : List (MarketId × ℕ)) (k k' : MarketId) (v : ℕ)
    (h : k' ≠ k) : allocD (allocBump l k v) k' = allocD l k' := by
  induction l with
  | nil => simp [allocBump, allocD_cons, allocD, Ne.symm h]
  | cons p t ih =>
    by_cases hk : p.1 = k
    · subst hk
      have hne : ¬ (p.1 = k') := fun hc => h hc.symm
      simp [allocBump, allocD_cons, hne]
    · simp only [allocBump, if_neg hk, allocD_cons]
      by_cases hk' : p.1 = k'
      · simp [hk']
      · simp only [if_neg hk']
        exact ih

/-- A successful `sInsertOrMerge` adds the new amount to the sum at its
key and leaves every other key's sum unchanged. -/
lemma sInsert_suppliesSum {l : List (MarketId × SupplyInfo)} {k : MarketId}
    {e : SupplyInfo} {l' : List (MarketId × SupplyInfo)}
    (h : sInsertOrMerge l k e = .ok l') :
    ∀ k', suppliesSum l' k' =
      suppliesSum l k' + (if k' = k then e.amount.raw else 0) := by
  induction l generalizing l' with
  | nil =>
    simp only [sInsertOrMerge, pure, Except.pure, Except.ok.injEq] at h
    intro k'
    by_cases hk : k' = k
    · simp [← h, suppliesSum_cons, suppliesSum, hk]
    · simp [← h, suppliesSum_cons, suppliesSum, hk, Ne.symm hk]
  | cons p t ih =>
    intro k'
    unfold sInsertOrMerge at h
    by_cases hk : p.1 = k
    · rw [if_pos hk] at h
      cases ham : TokenAmount.add p.2.amount e.amount with
      | error err =>
        rw [ham] at h
        exact absurd h (by simp [Bind.bind, Except.bind, pure, Except.pure])
      | ok am =>
        rw [ham] at h
        simp only [Bind.bind, Except.bind, pure, Except.pure, Except.ok.injEq] at h
        subst h
        rw [suppliesSum_cons, suppliesSum_cons]
        by_cases hk' : p.1 = k'
        · rw [if_pos hk', if_pos hk', if_pos (by rw [← hk', hk] : k' = k),
            (add_ok_raw ham).1]
          omega
        · rw [if_neg hk', if_neg hk',
            if_neg (fun hc : k' = k => hk' (hk.trans hc.symm))]
          omega
    · rw [if_neg hk] at h
      cases ht : sInsertOrMerge t k e with
      | error err =>
        rw [ht] at h
        exact absurd h (by simp [Bind.bind, Except.bind, pure, Except.pure])
      | ok t' =>
        rw [ht] at h
        simp only [Bind.bind, Except.bind, pure, Except.pure, Except.ok.injEq] at h
        subst h
        rw [suppliesSum_cons, suppliesSum_cons, ih ht k']
        omega

/-- Membership in a stable descending insertion. -/
lemma mem_insertDesc {key : α → ℚ} {x a : α} :
    ∀ {l : List α}, a ∈ insertDesc key x l ↔ a = x ∨ a ∈ l := by
  intro l
  induction l with
  | nil => simp [insertDesc]
  | cons y ys ih =>
    unfold insertDesc
    split
    · simp only [List.mem_cons, ih]
      tauto
    · simp only [List.mem_cons]

/-- Membership in the stable descending sort. -/
lemma mem_sortDescBy {key : α → ℚ} {a : α} {l : List α} :
    a ∈ sortDescBy key l ↔ a ∈ l := by
  suffices h : ∀ (l acc : List α),
      (a ∈ l.foldl (fun acc x => insertDesc key x acc) acc ↔ a ∈ acc ∨ a ∈ l) by
    unfold sortDescBy
    rw [h l []]
    simp
  intro l
  induction l with
  | nil => simp
  | cons x xs ih =>
    intro acc
    rw [List.foldl_cons, ih, mem_insertDesc]
    simp
    tauto

/-- One candidate walk preserves the impact-cap invariant. -/
lemma walkCandidates_impact (ratio : FP) (oracle : LiquidityOracle)
    (market_data : List Market) (caps : List MarketCap)
    (hnd : (market_data.map (fun m => m.unique_key)).Nodup)
    (pos : MarketPosition) (posMarket : Market) (posAmt : ℕ) (capy : ℚ) :
    ∀ (cands : List (Market × ℚ)) (st st' : EngState),
      (∀ tm ∈ cands, tm.1 ∈ market_data) →
      walkCandidates caps oracle ratio pos posMarket posAmt capy cands st = .ok st' →
      ImpactInv ratio market_data st → ImpactInv ratio market_data st' := by
  intro cands
  induction cands with
  | nil =>
    intro st st' _ h hI
    simp only [walkCandidates, pure, Except.pure, Except.ok.injEq] at h
    rwa [← h]
  | cons tm rest ih =>
    obtain ⟨target, tapy⟩ := tm
    intro st st' hmem h hI
    have hrest : ∀ tm ∈ rest, tm.1 ∈ market_data :=
      fun tm h' => hmem tm (List.mem_cons_of_mem _ h')
    have htgt : target ∈ market_data := hmem ⟨target, tapy⟩ (List.mem_cons_self _ _)
    unfold walkCandidates at h
    by_cases hbr : capy ≥ tapy
    · rw [if_pos hbr] at h
      simp only [pure, Except.pure, Except.ok.injEq] at h
      rwa [← h]
    · rw [if_neg hbr] at h
      by_cases hown : pos.unique_key = target.unique_key
      · rw [if_pos hown] at h
        exact ih st st' hrest h hI
      · rw [if_neg hown] at h
        cases hma : maxAllocE ratio target.state.supply_assets with
        | error e =>
          rw [hma] at h
          exact absurd h (by simp [Bind.bind, Except.bind, pure, Except.pure])
        | ok maxAlloc =>
          rw [hma] at h
          simp only [Bind.bind, Except.bind, pure, Except.pure] at h
          by_cases hrem : (maxAlloc : ℤ) -
              (allocD st.market_allocations target.unique_key : ℤ) ≤ 0
          · rw [if_pos hrem] at h
            cases hfw : TokenAmount.from_wei maxAlloc st.dec with
            | error e =>
              rw [hfw] at h
              exact absurd h (by simp [Bind.bind, Except.bind, pure, Except.pure])
            | ok t0 =>
              rw [hfw] at h
              simp only [Bind.bind, Except.bind, pure, Except.pure] at h
              exact ih st st' hrest h hI
          · rw [if_neg hrem] at h
            cases hliq : TokenAmount.fromWeiInt
                (get_market_liquidity oracle posMarket.unique_key)
                target.loan_asset.decimals with
            | error e =>
              rw [hliq] at h
              exact absurd h (by simp [Bind.bind, Except.bind, pure, Except.pure])
            | ok t1 =>
              rw [hliq] at h
              simp only [Bind.bind, Except.bind, pure, Except.pure] at h
              by_cases hmv : (if (min (posAmt : ℤ) ((maxAlloc : ℤ) -
                  (allocD st.market_allocations target.unique_key : ℤ))) >
                    get_market_liquidity oracle posMarket.unique_key then
                  get_market_liquidity oracle posMarket.unique_key
                else
                  min (posAmt : ℤ) ((maxAlloc : ℤ) -
                    (allocD st.market_allocations target.unique_key : ℤ))) ≤ 0
              · rw [if_pos hmv] at h
                exact ih _ st' hrest h hI
              · rw [if_neg hmv] at h
                cases hcf : capsFind caps target.unique_key with
                | none =>
                  rw [hcf] at h
                  exact absurd h (by simp [Bind.bind, Except.bind, pure, Except.pure])
                | some tc =>
                  rw [hcf] at h
                  simp only [Bind.bind, Except.bind, pure, Except.pure] at h
                  cases hfw2 : TokenAmount.from_wei
                      (if (min (posAmt : ℤ) ((maxAlloc : ℤ) -
                          (allocD st.market_allocations target.unique_key : ℤ))) >
                            get_market_liquidity oracle posMarket.unique_key then
                          get_market_liquidity oracle posMarket.unique_key
                        else
                          min (posAmt : ℤ) ((maxAlloc : ℤ) -
                            (allocD st.market_allocations target.unique_key : ℤ))).toNat
                      target.loan_asset.decimals with
                  | error e =>
                    rw [hfw2] at h
                    exact absurd h (by simp [Bind.bind, Except.bind, pure, Except.pure])
                  | ok moveAmount =>
                    rw [hfw2] at h
                    simp only [Bind.bind, Except.bind, pure, Except.pure] at h
                    cases hcw : create_withdrawal pos.unique_key pos posMarket
                        (if (min (posAmt : ℤ) ((maxAlloc : ℤ) -
                            (allocD st.market_allocations target.unique_key : ℤ))) >
                              get_market_liquidity oracle posMarket.unique_key then
                            get_market_liquidity oracle posMarket.unique_key
                          else
                            min (posAmt : ℤ) ((maxAlloc : ℤ) -
                              (allocD st.market_allocations target.unique_key : ℤ))).toNat
                        (decide ((if (min (posAmt : ℤ) ((maxAlloc : ℤ) -
                            (allocD st.market_allocations target.unique_key : ℤ))) >
                              get_market_liquidity oracle posMarket.unique_key then
                            get_market_liquidity oracle posMarket.unique_key
                          else
                            min (posAmt : ℤ) ((maxAlloc : ℤ) -
                              (allocD st.market_allocations target.unique_key : ℤ))) ≥
                          (posAmt : ℤ))) (some tc) with
                    | error e =>
                      rw [hcw] at h
                      exact absurd h (by simp [Bind.bind, Except.bind, pure, Except.pure])
                    | ok w =>
                      rw [hcw] at h
                      simp only [Bind.bind, Except.bind, pure, Except.pure] at h
                      cases hws : wInsertOrMerge st.withdrawals pos.unique_key
                          ⟨w.amount, w.shares, pos, tc⟩ with
                      | error e =>
                        rw [hws] at h
                        exact absurd h (by simp [Bind.bind, Except.bind, pure, Except.pure])
                      | ok ws =>
                        rw [hws] at h
                        simp only [Bind.bind, Except.bind, pure, Except.pure] at h
                        cases hss : sInsertOrMerge st.supplies target.unique_key
                            ⟨moveAmount, pos, tc, target.loan_asset.decimals⟩ with
                        | error e =>
                          rw [hss] at h
                          exact absurd h (by simp [Bind.bind, Except.bind, pure, Except.pure])
                        | ok ss =>
                          rw [hss] at h
                          simp only [Bind.bind, Except.bind, pure, Except.pure,
                            Except.ok.injEq] at h
                          subst h
                          constructor
                          · intro k
                            show suppliesSum ss k = allocD (allocBump
                              st.market_allocations target.unique_key _) k
                            rw [sInsert_suppliesSum hss k]
                            by_cases hk : k = target.unique_key
                            · rw [if_pos hk, hk, allocD_bump_self, hI.1,
                                (from_wei_ok hfw2).1]
                            · rw [if_neg hk, allocD_bump_other _ _ _ _ hk, hI.1]
                              omega
                          · intro m hm v hv
                            show allocD (allocBump st.market_allocations
                              target.unique_key _) m.unique_key ≤ v
                            by_cases hk : m.unique_key = target.unique_key
                            · have hmt : m = target :=
                                List.inj_on_of_nodup_map hnd hm htgt hk
                              subst hmt
                              rw [hma] at hv
                              have hv' : v = maxAlloc := by
                                simpa using hv.symm
                              subst hv'
                              rw [allocD_bump_self]
                              push_neg at hrem hmv
                              have hmv_le : (if (min (posAmt : ℤ) ((v : ℤ) -
                                  (allocD st.market_allocations m.unique_key : ℤ))) >
                                    get_market_liquidity oracle posMarket.unique_key then
                                  get_market_liquidity oracle posMarket.unique_key
                                else
                                  min (posAmt : ℤ) ((v : ℤ) -
                                    (allocD st.market_allocations m.unique_key : ℤ))) ≤
                                  (v : ℤ) -
                                    (allocD st.market_allocations m.unique_key : ℤ) := by
                                split
                                · next hgt =>
                                  exact le_trans hgt.le (min_le_right _ _)
                                · exact min_le_right _ _
                              omega
                            · rw [allocD_bump_other _ _ _ _ hk]
                              exact hI.2 m hm v hv

/-- An `Except`-fold preserves any property its step preserves. -/
lemma foldlM_inv {α : Type} (P : EngState → Prop)
    (step : EngState → α → Except Err EngState)
    (hstep : ∀ st a st', step st a = .ok st' → P st → P st') :
    ∀ (l : List α) (st st' : EngState),
      List.foldlM step st l = .ok st' → P st → P st' := by
  intro l
  induction l with
  | nil =>
    intro st st' h hP
    simp only [List.foldlM_nil, pure, Except.pure, Except.ok.injEq] at h
    rwa [← h]
  | cons a t ih =>
    intro st st' h hP
    rw [List.foldlM_cons] at h
    cases hs : step st a with
    | error e =>
      rw [hs] at h
      exact absurd h (by simp [Bind.bind, Except.bind, pure, Except.pure])
    | ok st1 =>
      rw [hs] at h
      simp only [Bind.bind, Except.bind] at h
      exact ih st1 st' h (hstep st a st1 hs hP)

/-- One position walk preserves the impact-cap invariant. -/
lemma processPosition_impact (ratio : FP) (oracle : LiquidityOracle)
    (market_data : List Market) (caps : List MarketCap)
    (capped : List (Market × ℚ))
    (hnd : (market_data.map (fun m => m.unique_key)).Nodup)
    (hcapped : ∀ tm ∈ capped, tm.1 ∈ market_data)
    (st : EngState) (pos : MarketPosition) (st' : EngState)
    (h : processPosition market_data caps oracle ratio capped st pos = .ok st')
    (hI : ImpactInv ratio market_data st) : ImpactInv ratio market_data st' := by
  unfold processPosition at h
  split at h
  · simp only [pure, Except.pure, Except.ok.injEq] at h
    rwa [← h]
  · next mk hf =>
    cases hg : TokenAmount.from_wei pos.supply_assets st.dec with
    | error e =>
      rw [hg] at h
      exact absurd h (by simp [Bind.bind, Except.bind, pure, Except.pure])
    | ok t0 =>
      rw [hg] at h
      simp only [Bind.bind, Except.bind] at h
      exact walkCandidates_impact ratio oracle market_data caps hnd pos mk
        pos.supply_assets mk.state.supply_apy capped st st' hcapped h hI

/-- One group walk preserves the impact-cap invariant. -/
lemma processGroup_impact (ratio : FP) (oracle : LiquidityOracle)
    (market_data : List Market) (caps : List MarketCap)
    (hnd : (market_data.map (fun m => m.unique_key)).Nodup)
    (st : EngState) (g : GroupedPosition) (st' : EngState)
    (h : processGroup market_data caps oracle ratio st g = .ok st')
    (hI : ImpactInv ratio market_data st) : ImpactInv ratio market_data st' := by
  unfold processGroup at h
  by_cases hav : (filter_available_markets g.loan_token.address market_data).isEmpty
  · rw [if_pos hav] at h
    simp only [pure, Except.pure, Except.ok.injEq] at h
    rw [← h]
    exact hI
  · rw [if_neg hav] at h
    by_cases hcap : (sortDescBy (fun p => p.2)
        (((filter_available_markets g.loan_token.address market_data).filter
          (fun m => (capsFind caps m.unique_key).isSome)).map
            (fun m => (m, m.state.supply_apy)))).isEmpty
    · rw [if_pos hcap] at h
      simp only [pure, Except.pure, Except.ok.injEq] at h
      rw [← h]
      exact hI
    · rw [if_neg hcap] at h
      have hcapped : ∀ tm ∈ sortDescBy (fun p => p.2)
          (((filter_available_markets g.loan_token.address market_data).filter
            (fun m => (capsFind caps m.unique_key).isSome)).map
              (fun m => (m, m.state.supply_apy))), tm.1 ∈ market_data := by
        intro tm htm
        rw [mem_sortDescBy] at htm
        simp only [List.mem_map, List.mem_filter] at htm
        obtain ⟨mkt, ⟨hmkt, -⟩, rfl⟩ := htm
        unfold filter_available_markets at hmkt
        rw [mem_sortDescBy] at hmkt
        exact (List.mem_filter.mp hmkt).1
      exact foldlM_inv (ImpactInv ratio market_data) _
        (fun s a s' hs hP => processPosition_impact ratio oracle market_data caps
          _ hnd hcapped s a s' hs hP)
        g.markets _ st' h hI

/-- The final supply actions carry exactly the recorded sums. -/
lemma mapM_supplies_sum :
    ∀ (l : List (MarketId × SupplyInfo)) (acts : List MarketAction),
      l.mapM (fun p => do
        let z ← TokenAmount.from_wei 0 p.2.decimals
        pure (MarketAction.mk p.1 .supply p.2.amount z p.2.position
          (some p.2.target_cap))) = .ok acts →
      ∀ k, sumActionsInto acts k = suppliesSum l k := by
  intro l
  induction l with
  | nil =>
    intro acts h k
    simp only [List.mapM_nil, pure, Except.pure, Except.ok.injEq] at h
    rw [← h]
    rfl
  | cons p t ih =>
    intro acts h k
    rw [List.mapM_cons] at h
    cases hz : TokenAmount.from_wei 0 p.2.decimals with
    | error e =>
      rw [hz] at h
      exact absurd h (by simp [Bind.bind, Except.bind, pure, Except.pure])
    | ok z =>
      rw [hz] at h
      cases ht : t.mapM (fun p => do
          let z ← TokenAmount.from_wei 0 p.2.decimals
          pure (MarketAction.mk p.1 .supply p.2.amount z p.2.position
            (some p.2.target_cap))) with
      | error e =>
        rw [ht] at h
        exact absurd h (by simp [Bind.bind, Except.bind, pure, Except.pure])
      | ok ta =>
        rw [ht] at h
        simp only [Bind.bind, Except.bind, pure, Except.pure, Except.ok.injEq] at h
        rw [← h]
        have hrec := ih ta ht k
        simp only [sumActionsInto] at hrec ⊢
        by_cases hk : p.1 = k
        · subst hk
          simp [List.filter_cons, suppliesSum_cons, hrec]
        · simp [List.filter_cons, suppliesSum_cons, hrec, hk,
            beq_eq_false_iff_ne.mpr hk]

/-- Withdraw actions contribute nothing to supply sums. -/
lemma sumActionsInto_withdrawals (l : List (MarketId × WithdrawalInfo))
    (ss : List MarketAction) (k : MarketId) :
    sumActionsInto ((l.map (fun p => MarketAction.mk p.1 .withdraw p.2.amount
      p.2.shares p.2.position (some p.2.target_cap))) ++ ss) k =
      sumActionsInto ss k := by
  induction l with
  | nil => rfl
  | cons p t ih =>
    simp only [List.map_cons, List.cons_append, sumActionsInto, List.filter_cons]
    rw [show ((ActionType.withdraw == ActionType.supply) && ((p.1 : MarketId) == k))
      = false from rfl]
    exact ih

/-- A finalized plan's supply sums are the engine state's recorded sums. -/
lemma finalize_sum {st : EngState} {plan : ReallocationStrategy}
    (h : finalizeActions st = .ok plan) (k : MarketId) :
    sumSuppliesInto plan k = suppliesSum st.supplies k := by
  unfold finalizeActions at h
  cases hm : st.supplies.mapM (fun p => do
      let z ← TokenAmount.from_wei 0 p.2.decimals
      pure (MarketAction.mk p.1 .supply p.2.amount z p.2.position
        (some p.2.target_cap))) with
  | error e =>
    rw [hm] at h
    exact absurd h (by simp [Bind.bind, Except.bind, pure, Except.pure])
  | ok ss =>
    rw [hm] at h
    simp only [Bind.bind, Except.bind, pure, Except.pure, Except.ok.injEq] at h
    rw [← h]
    show sumActionsInto _ k = _
    rw [sumActionsInto_withdrawals]
    exact mapM_supplies_sum st.supplies ss hm k

/-- C1 (amended): in any single invocation that returns a plan, the sum
of Supply amounts routed into a market `m` never exceeds the cap the
code computes — `int(float(m.totalSupply) * float(ratio))` in binary64
arithmetic (whenever that conversion succeeds), which is what line 143 of
`simple_max_apy.py` evaluates.  This computed cap can exceed the exact
`floor(totalSupply × ratio)` by a few units of rounding (see the
counterexample), so the bound holds for the float cap, not the exact
floor. -/
theorem impact_cap_float (ratio : FP) (oracle : LiquidityOracle)
    (positions : List MarketPosition) (market_caps : List MarketCap)
    (market_data : List Market)
    (hnd : (market_data.map (fun m => m.unique_key)).Nodup)
    (plan : ReallocationStrategy)
    (h : calculate_reallocation ratio oracle positions market_caps market_data =
      .ok plan)
    (m : Market) (hm : m ∈ market_data) (v : ℕ)
    (hv : maxAllocE ratio m.state.supply_assets = .ok v) :
    sumSuppliesInto plan m.unique_key ≤ v := by
  unfold calculate_reallocation at h
  by_cases hmd : market_data.isEmpty
  · rw [List.isEmpty_iff] at hmd
    subst hmd
    simp at hm
  · rw [if_neg (by simpa [List.isEmpty_iff] using hmd)] at h
    cases hg : group_positions_by_loan_asset positions market_data with
    | error e =>
      rw [hg] at h
      exact absurd h (by simp [Bind.bind, Except.bind, pure, Except.pure])
    | ok grouped =>
      rw [hg] at h
      simp only [Bind.bind, Except.bind] at h
      cases hf : grouped.foldlM
          (processGroup market_data (market_caps.map fixCap) oracle ratio)
          ⟨[], [], [], 0⟩ with
      | error e =>
        rw [hf] at h
        exact absurd h (by simp [Bind.bind, Except.bind, pure, Except.pure])
      | ok stF =>
        rw [hf] at h
        simp only [Bind.bind, Except.bind] at h
        have hI0 : ImpactInv ratio market_data ⟨[], [], [], 0⟩ :=
          ⟨fun _ => rfl, fun _ _ v _ => Nat.zero_le v⟩
        have hIF : ImpactInv ratio market_data stF :=
          foldlM_inv (ImpactInv ratio market_data) _
            (fun s a s' hs hP =>
              processGroup_impact ratio oracle market_data
                (market_caps.map fixCap) hnd s a s' hs hP)
            grouped _ stF hf hI0
        rw [finalize_sum h, hIF.1]
        exact hIF.2 m hm v hv

set_option maxRecDepth 100000 in
/-- C1, counterexample: the claimed bound `floor(totalSupply ×
maxMarketImpactRatio)` computed exactly is violated.  With target market
total supply `2^60 - 1` and the default ratio `0.05`, the code's
binary64 computation `int(float(2^60 - 1) * 0.05)` yields
`57646075230342352` (the conversion of `2^60 - 1` to a double rounds up
to `2^60`, and the double `0.05` is slightly above `1/20`), and a single
large position is routed into the target for exactly that amount — which
exceeds the exact `floor((2^60 - 1) / 20) = 57646075230342348` by 4. -/
theorem impact_cap_exact_floor_cex :
    (calculate_reallocation ratio005
        (fun k => if k == ['m', '1'] then some ⟨2 ^ 70, 0⟩ else some ⟨0, 0⟩)
        [⟨['m', '1'], 2 ^ 60, 999⟩]
        [⟨['m', '2'], 1⟩]
        [⟨['m', '1'], ⟨10, 18⟩, 1, 2, 3, 4, ⟨0, 1⟩⟩,
         ⟨['m', '2'], ⟨10, 18⟩, 5, 6, 7, 8, ⟨2 ^ 60 - 1, 5⟩⟩]).map
      (fun p => sumSuppliesInto p ['m', '2']) = .ok 57646075230342352 ∧
    57646075230342352 > (2 ^ 60 - 1) / 20 := by
  constructor
  · decide
  · decide

set_option maxRecDepth 100000 in
/-- C1, witness for the amended theorem: an empty-position run against a
single market with supply `100000` (float cap `5000`) routes `0 ≤ 5000`
into it. -/
theorem impact_cap_float_witness :
    sumSuppliesInto ⟨[]⟩ ['m', '2'] ≤ 5000 :=
  impact_cap_float ratio005 (fun _ => some ⟨0, 0⟩) [] []
    [⟨['m', '2'], ⟨10, 6⟩, 5, 6, 7, 8, ⟨100000, 5⟩⟩]
    (by decide) ⟨[]⟩ (by decide)
    ⟨['m', '2'], ⟨10, 6⟩, 5, 6, 7, 8, ⟨100000, 5⟩⟩
    (by simp) 5000 (by decide)

/-! #### C4: the liquidity cap on withdrawals -/

/-- `findMarket` returns a market with the looked-up key. -/
lemma findMarket_key {markets : List Market} {k : MarketId} {m : Market}
    (h : findMarket markets k = some m) : m.unique_key = k := by
  unfold findMarket at h
  have hb := List.find?_some h
  exact beq_iff_eq.mp hb

/-- Inserting a fresh key into a withdrawal dict appends it at the end. -/
lemma wInsert_fresh : ∀ (l : List (MarketId × WithdrawalInfo)) (k : MarketId)
    (e : WithdrawalInfo), k ∉ l.map Prod.fst →
    wInsertOrMerge l k e = .ok (l ++ [(k, e)]) := by
  intro l
  induction l with
  | nil =>
    intro k e h0
    rfl
  | cons p t ih =>
    intro k e hf
    have hne : p.1 ≠ k := by
      intro hc
      apply hf
      rw [List.map_cons, ← hc]
      exact List.mem_cons_self _ _
    unfold wInsertOrMerge
    rw [if_neg hne, ih k e (fun hc => hf (List.mem_cons_of_mem _ hc))]
    rfl

/-- A successful `create_withdrawal` is a withdraw action on the given
market whose asset amount is bounded by the requested move (it is `0`
when the full position is withdrawn via shares). -/
lemma create_withdrawal_amount {mid : MarketId} {pos : MarketPosition}
    {mkt : Market} {mv : ℕ} {ums : Bool} {tc : Option MarketCap}
    {w : MarketAction}
    (h : create_withdrawal mid pos mkt mv ums tc = .ok w) :
    w.amount.raw ≤ mv ∧ w.action_type = ActionType.withdraw ∧
      w.market_id = mid := by
  unfold create_withdrawal at h
  cases ums with
  | true =>
    rw [if_pos rfl] at h
    cases ha : TokenAmount.from_wei 0 mkt.loan_asset.decimals with
    | error e =>
      rw [ha] at h
      exact absurd h (by simp [Bind.bind, Except.bind, pure, Except.pure])
    | ok a =>
      rw [ha] at h
      simp only [Bind.bind, Except.bind, pure, Except.pure] at h
      cases hs : TokenAmount.from_wei pos.supply_shares 0 with
      | error e =>
        rw [hs] at h
        exact absurd h (by simp [pure, Except.pure])
      | ok s =>
        rw [hs] at h
        simp only [pure, Except.pure, Except.ok.injEq] at h
        rw [← h]
        exact ⟨by rw [(from_wei_ok ha).1]; exact Nat.zero_le mv, rfl, rfl⟩
  | false =>
    rw [if_neg (by simp)] at h
    cases ha : TokenAmount.from_wei mv mkt.loan_asset.decimals with
    | error e =>
      rw [ha] at h
      exact absurd h (by simp [Bind.bind, Except.bind, pure, Except.pure])
    | ok a =>
      rw [ha] at h
      simp only [Bind.bind, Except.bind, pure, Except.pure] at h
      cases hs : TokenAmount.from_wei 0 mkt.loan_asset.decimals with
      | error e =>
        rw [hs] at h
        exact absurd h (by simp [pure, Except.pure])
      | ok s =>
        rw [hs] at h
        simp only [pure, Except.pure, Except.ok.injEq] at h
        rw [← h]
        exact ⟨le_of_eq (from_wei_ok ha).1, rfl, rfl⟩

/-- `groupsKeys` on a cons. -/
lemma groupsKeys_cons (g : GroupedPosition) (gs : List GroupedPosition) :
    groupsKeys (g :: gs) =
      g.markets.map (fun p => p.unique_key) ++ groupsKeys gs := rfl

/-- `groupsKeys` after appending a fresh (memberless) group. -/
lemma groupsKeys_append_empty (gs : List GroupedPosition) (t : Asset)
    (z : TokenAmount) :
    groupsKeys (gs ++ [⟨t, z, []⟩]) = groupsKeys gs := by
  simp [groupsKeys]

/-- The finalized supply actions all carry the `Supply` action type. -/
lemma mapM_supply_type :
    ∀ (l : List (MarketId × SupplyInfo)) (acts : List MarketAction),
      l.mapM (fun p => do
        let z ← TokenAmount.from_wei 0 p.2.decimals
        pure (MarketAction.mk p.1 .supply p.2.amount z p.2.position
          (some p.2.target_cap))) = .ok acts →
      ∀ a ∈ acts, a.action_type = ActionType.supply := by
  intro l
  induction l with
  | nil =>
    intro acts h a ha
    simp only [List.mapM_nil, pure, Except.pure, Except.ok.injEq] at h
    rw [← h] at ha
    exact absurd ha (List.not_mem_nil a)
  | cons p t ih =>
    intro acts h a ha
    rw [List.mapM_cons] at h
    cases hz : TokenAmount.from_wei 0 p.2.decimals with
    | error e =>
      rw [hz] at h
      exact absurd h (by simp [Bind.bind, Except.bind, pure, Except.pure])
    | ok z =>
      rw [hz] at h
      cases ht : t.mapM (fun p => do
          let z ← TokenAmount.from_wei 0 p.2.decimals
          pure (MarketAction.mk p.1 .supply p.2.amount z p.2.position
            (some p.2.target_cap))) with
      | error e =>
        rw [ht] at h
        exact absurd h (by simp [Bind.bind, Except.bind, pure, Except.pure])
      | ok ta =>
        rw [ht] at h
        simp only [Bind.bind, Except.bind, pure, Except.pure, Except.ok.injEq] at h
        rw [← h] at ha
        rcases List.mem_cons.mp ha with rfl | hmem
        · rfl
        · exact ih ta ht a hmem

/-- One candidate walk preserves the liquidity-cap invariant, provided
the walked position's market key is not yet in the withdrawal dict; the
only key it can add to the dict is the position's own. -/
lemma walkCandidates_liq (ratio : FP) (oracle : LiquidityOracle)
    (caps : List MarketCap) (pos : MarketPosition) (posMarket : Market)
    (posAmt : ℕ) (capy : ℚ) (hkey : posMarket.unique_key = pos.unique_key) :
    ∀ (cands : List (Market × ℚ)) (st st' : EngState),
      walkCandidates caps oracle ratio pos posMarket posAmt capy cands st =
        .ok st' →
      LiqInv oracle st →
      pos.unique_key ∉ st.withdrawals.map Prod.fst →
      LiqInv oracle st' ∧
      ∀ k ∈ st'.withdrawals.map Prod.fst,
        k = pos.unique_key ∨ k ∈ st.withdrawals.map Prod.fst := by
  intro cands
  induction cands with
  | nil =>
    intro st st' h hI hf
    simp only [walkCandidates, pure, Except.pure, Except.ok.injEq] at h
    rw [← h]
    exact ⟨hI, fun k hk => Or.inr hk⟩
  | cons tm rest ih =>
    obtain ⟨target, tapy⟩ := tm
    intro st st' h hI hf
    unfold walkCandidates at h
    by_cases hbr : capy ≥ tapy
    · rw [if_pos hbr] at h
      simp only [pure, Except.pure, Except.ok.injEq] at h
      rw [← h]
      exact ⟨hI, fun k hk => Or.inr hk⟩
    · rw [if_neg hbr] at h
      by_cases hown : pos.unique_key = target.unique_key
      · rw [if_pos hown] at h
        exact ih st st' h hI hf
      · rw [if_neg hown] at h
        cases hma : maxAllocE ratio target.state.supply_assets with
        | error e =>
          rw [hma] at h
          exact absurd h (by simp [Bind.bind, Except.bind, pure, Except.pure])
        | ok maxAlloc =>
          rw [hma] at h
          simp only [Bind.bind, Except.bind, pure, Except.pure] at h
          by_cases hrem : (maxAlloc : ℤ) -
              (allocD st.market_allocations target.unique_key : ℤ) ≤ 0
          · rw [if_pos hrem] at h
            cases hfw : TokenAmount.from_wei maxAlloc st.dec with
            | error e =>
              rw [hfw] at h
              exact absurd h (by simp [Bind.bind, Except.bind, pure, Except.pure])
            | ok t0 =>
              rw [hfw] at h
              simp only [Bind.bind, Except.bind, pure, Except.pure] at h
              exact ih st st' h hI hf
          · rw [if_neg hrem] at h
            cases hliq : TokenAmount.fromWeiInt
                (get_market_liquidity oracle posMarket.unique_key)
                target.loan_asset.decimals with
            | error e =>
              rw [hliq] at h
              exact absurd h (by simp [Bind.bind, Except.bind, pure, Except.pure])
            | ok t1 =>
              rw [hliq] at h
              simp only [Bind.bind, Except.bind, pure, Except.pure] at h
              by_cases hmv : (if (min (posAmt : ℤ) ((maxAlloc : ℤ) -
                  (allocD st.market_allocations target.unique_key : ℤ))) >
                    get_market_liquidity oracle posMarket.unique_key then
                  get_market_liquidity oracle posMarket.unique_key
                else
                  min (posAmt : ℤ) ((maxAlloc : ℤ) -
                    (allocD st.market_allocations target.unique_key : ℤ))) ≤ 0
              · rw [if_pos hmv] at h
                exact ih ⟨st.withdrawals, st.supplies, st.market_allocations,
                  target.loan_asset.decimals⟩ st' h hI hf
              · rw [if_neg hmv] at h
                cases hcf : capsFind caps target.unique_key with
                | none =>
                  rw [hcf] at h
                  exact absurd h (by simp [Bind.bind, Except.bind, pure, Except.pure])
                | some tc =>
                  rw [hcf] at h
                  simp only [Bind.bind, Except.bind, pure, Except.pure] at h
                  cases hfw2 : TokenAmount.from_wei
                      (if (min (posAmt : ℤ) ((maxAlloc : ℤ) -
                          (allocD st.market_allocations target.unique_key : ℤ))) >
                            get_market_liquidity oracle posMarket.unique_key then
                          get_market_liquidity oracle posMarket.unique_key
                        else
                          min (posAmt : ℤ) ((maxAlloc : ℤ) -
                            (allocD st.market_allocations target.unique_key : ℤ))).toNat
                      target.loan_asset.decimals with
                  | error e =>
                    rw [hfw2] at h
                    exact absurd h (by simp [Bind.bind, Except.bind, pure, Except.pure])
                  | ok moveAmount =>
                    rw [hfw2] at h
                    simp only [Bind.bind, Except.bind, pure, Except.pure] at h
                    cases hcw : create_withdrawal pos.unique_key pos posMarket
                        (if (min (posAmt : ℤ) ((maxAlloc : ℤ) -
                            (allocD st.market_allocations target.unique_key : ℤ))) >
                              get_market_liquidity oracle posMarket.unique_key then
                            get_market_liquidity oracle posMarket.unique_key
                          else
                            min (posAmt : ℤ) ((maxAlloc : ℤ) -
                              (allocD st.market_allocations target.unique_key : ℤ))).toNat
                        (decide ((if (min (posAmt : ℤ) ((maxAlloc : ℤ) -
                            (allocD st.market_allocations target.unique_key : ℤ))) >
                              get_market_liquidity oracle posMarket.unique_key then
                            get_market_liquidity oracle posMarket.unique_key
                          else
                            min (posAmt : ℤ) ((maxAlloc : ℤ) -
                              (allocD st.market_allocations target.unique_key : ℤ))) ≥
                          (posAmt : ℤ))) (some tc) with
                    | error e =>
                      rw [hcw] at h
                      exact absurd h (by simp [Bind.bind, Except.bind, pure, Except.pure])
                    | ok w =>
                      rw [hcw] at h
                      simp only [Bind.bind, Except.bind, pure, Except.pure] at h
                      cases hws : wInsertOrMerge st.withdrawals pos.unique_key
                          ⟨w.amount, w.shares, pos, tc⟩ with
                      | error e =>
                        rw [hws] at h
                        exact absurd h (by simp [Bind.bind, Except.bind, pure, Except.pure])
                      | ok ws =>
                        rw [hws] at h
                        simp only [Bind.bind, Except.bind, pure, Except.pure] at h
                        rw [wInsert_fresh st.withdrawals pos.unique_key
                          ⟨w.amount, w.shares, pos, tc⟩ hf] at hws
                        have hws' : ws = st.withdrawals ++
                            [(pos.unique_key, ⟨w.amount, w.shares, pos, tc⟩)] := by
                          injection hws with hws
                          exact hws.symm
                        cases hss : sInsertOrMerge st.supplies target.unique_key
                            ⟨moveAmount, pos, tc, target.loan_asset.decimals⟩ with
                        | error e =>
                          rw [hss] at h
                          exact absurd h (by simp [pure, Except.pure])
                        | ok ss =>
                          rw [hss] at h
                          simp only [pure, Except.pure, Except.ok.injEq] at h
                          subst h
                          subst hws'
                          push_neg at hmv
                          have hml : (if (min (posAmt : ℤ) ((maxAlloc : ℤ) -
                              (allocD st.market_allocations target.unique_key : ℤ))) >
                                get_market_liquidity oracle posMarket.unique_key then
                              get_market_liquidity oracle posMarket.unique_key
                            else
                              min (posAmt : ℤ) ((maxAlloc : ℤ) -
                                (allocD st.market_allocations target.unique_key : ℤ))) ≤
                              get_market_liquidity oracle posMarket.unique_key := by
                            split
                            · exact le_rfl
                            · next hng => exact le_of_not_lt hng
                          have hwa := (create_withdrawal_amount hcw).1
                          constructor
                          · intro p hp
                            show (p.2.amount.raw : ℤ) ≤
                                get_market_liquidity oracle p.1 ∧
                              0 < get_market_liquidity oracle p.1
                            rcases List.mem_append.mp hp with h1 | h2
                            · exact hI p h1
                            · have hp2 := List.mem_singleton.mp h2
                              subst hp2
                              show (w.amount.raw : ℤ) ≤
                                  get_market_liquidity oracle pos.unique_key ∧
                                0 < get_market_liquidity oracle pos.unique_key
                              rw [← hkey]
                              constructor
                              · omega
                              · omega
                          · intro k hk
                            rw [List.map_append] at hk
                            rcases List.mem_append.mp hk with h1 | h2
                            · exact Or.inr h1
                            · simp only [List.map_cons, List.map_nil,
                                List.mem_singleton] at h2
                              exact Or.inl h2

/-- One position walk preserves the liquidity-cap invariant and can only
add the position's own market key to the withdrawal dict. -/
lemma processPosition_liq (ratio : FP) (oracle : LiquidityOracle)
    (market_data : List Market) (caps : List MarketCap)
    (capped : List (Market × ℚ)) (st : EngState) (pos : MarketPosition)
    (st' : EngState)
    (h : processPosition market_data caps oracle ratio capped st pos = .ok st')
    (hI : LiqInv oracle st)
    (hf : pos.unique_key ∉ st.withdrawals.map Prod.fst) :
    LiqInv oracle st' ∧
    ∀ k ∈ st'.withdrawals.map Prod.fst,
      k = pos.unique_key ∨ k ∈ st.withdrawals.map Prod.fst := by
  unfold processPosition at h
  split at h
  · simp only [pure, Except.pure, Except.ok.injEq] at h
    rw [← h]
    exact ⟨hI, fun k hk => Or.inr hk⟩
  · next mk hfind =>
    cases hg : TokenAmount.from_wei pos.supply_assets st.dec with
    | error e =>
      rw [hg] at h
      exact absurd h (by simp [Bind.bind, Except.bind, pure, Except.pure])
    | ok t0 =>
      rw [hg] at h
      simp only [Bind.bind, Except.bind] at h
      exact walkCandidates_liq ratio oracle caps pos mk pos.supply_assets
        mk.state.supply_apy (findMarket_key hfind) capped st st' h hI hf

/-- The fold over a group's positions preserves the liquidity-cap
invariant provided the positions' keys are distinct among themselves and
fresh for the withdrawal dict; it only adds those keys to the dict. -/
lemma foldPositions_liq (ratio : FP) (oracle : LiquidityOracle)
    (market_data : List Market) (caps : List MarketCap)
    (capped : List (Market × ℚ)) :
    ∀ (ps : List MarketPosition) (st st' : EngState),
      ps.foldlM (processPosition market_data caps oracle ratio capped) st =
        .ok st' →
      LiqInv oracle st →
      (ps.map (fun p => p.unique_key)).Nodup →
      (∀ k ∈ ps.map (fun p => p.unique_key), k ∉ st.withdrawals.map Prod.fst) →
      LiqInv oracle st' ∧
      ∀ k ∈ st'.withdrawals.map Prod.fst,
        k ∈ st.withdrawals.map Prod.fst ∨
          k ∈ ps.map (fun p => p.unique_key) := by
  intro ps
  induction ps with
  | nil =>
    intro st st' h hI _ _
    simp only [List.foldlM_nil, pure, Except.pure, Except.ok.injEq] at h
    rw [← h]
    exact ⟨hI, fun k hk => Or.inl hk⟩
  | cons p t ih =>
    intro st st' h hI hnd hdisj
    rw [List.foldlM_cons] at h
    cases hs : processPosition market_data caps oracle ratio capped st p with
    | error e =>
      rw [hs] at h
      exact absurd h (by simp [Bind.bind, Except.bind, pure, Except.pure])
    | ok st1 =>
      rw [hs] at h
      simp only [Bind.bind, Except.bind] at h
      have hp := processPosition_liq ratio oracle market_data caps capped st p
        st1 hs hI (hdisj p.unique_key (by simp))
      have hnd2 := List.nodup_cons.mp (by simpa using hnd :
        (p.unique_key :: t.map (fun p => p.unique_key)).Nodup)
      have hdisj' : ∀ k ∈ t.map (fun p => p.unique_key),
          k ∉ st1.withdrawals.map Prod.fst := by
        intro k hk hmem
        rcases hp.2 k hmem with rfl | hold
        · exact hnd2.1 hk
        · refine hdisj k ?_ hold
          rw [List.map_cons]
          exact List.mem_cons_of_mem _ hk
      obtain ⟨hI', hsub⟩ := ih st1 st' h hp.1 hnd2.2 hdisj'
      refine ⟨hI', fun k hk => ?_⟩
      rcases hsub k hk with h1 | h2
      · rcases hp.2 k h1 with rfl | hold
        · exact Or.inr (by simp)
        · exact Or.inl hold
      · refine Or.inr ?_
        rw [List.map_cons]
        exact List.mem_cons_of_mem _ h2

/-- One group walk preserves the liquidity-cap invariant and only adds
the group members' keys to the withdrawal dict. -/
lemma processGroup_liq (ratio : FP) (oracle : LiquidityOracle)
    (market_data : List Market) (caps : List MarketCap)
    (st : EngState) (g : GroupedPosition) (st' : EngState)
    (h : processGroup market_data caps oracle ratio st g = .ok st')
    (hI : LiqInv oracle st)
    (hnd : (g.markets.map (fun p => p.unique_key)).Nodup)
    (hdisj : ∀ k ∈ g.markets.map (fun p => p.unique_key),
      k ∉ st.withdrawals.map Prod.fst) :
    LiqInv oracle st' ∧
    ∀ k ∈ st'.withdrawals.map Prod.fst,
      k ∈ st.withdrawals.map Prod.fst ∨
        k ∈ g.markets.map (fun p => p.unique_key) := by
  unfold processGroup at h
  by_cases hav : (filter_available_markets g.loan_token.address market_data).isEmpty
  · rw [if_pos hav] at h
    simp only [pure, Except.pure, Except.ok.injEq] at h
    rw [← h]
    exact ⟨hI, fun k hk => Or.inl hk⟩
  · rw [if_neg hav] at h
    by_cases hcap : (sortDescBy (fun p => p.2)
        (((filter_available_markets g.loan_token.address market_data).filter
          (fun m => (capsFind caps m.unique_key).isSome)).map
            (fun m => (m, m.state.supply_apy)))).isEmpty
    · rw [if_pos hcap] at h
      simp only [pure, Except.pure, Except.ok.injEq] at h
      rw [← h]
      exact ⟨hI, fun k hk => Or.inl hk⟩
    · rw [if_neg hcap] at h
      exact foldPositions_liq ratio oracle market_data caps _ g.markets
        ⟨st.withdrawals, st.supplies, st.market_allocations,
          g.loan_token.decimals⟩ st' h hI hnd hdisj

/-- The fold over the groups preserves the liquidity-cap invariant
provided all group members' keys are distinct and fresh. -/
lemma foldGroups_liq (ratio : FP) (oracle : LiquidityOracle)
    (market_data : List Market) (caps : List MarketCap) :
    ∀ (gs : List GroupedPosition) (st st' : EngState),
      gs.foldlM (processGroup market_data caps oracle ratio) st = .ok st' →
      LiqInv oracle st →
      (groupsKeys gs).Nodup →
      (∀ k ∈ groupsKeys gs, k ∉ st.withdrawals.map Prod.fst) →
      LiqInv oracle st' ∧
      ∀ k ∈ st'.withdrawals.map Prod.fst,
        k ∈ st.withdrawals.map Prod.fst ∨ k ∈ groupsKeys gs := by
  intro gs
  induction gs with
  | nil =>
    intro st st' h hI _ _
    simp only [List.foldlM_nil, pure, Except.pure, Except.ok.injEq] at h
    rw [← h]
    exact ⟨hI, fun k hk => Or.inl hk⟩
  | cons g gs ih =>
    intro st st' h hI hnd hdisj
    rw [List.foldlM_cons] at h
    cases hs : processGroup market_data caps oracle ratio st g with
    | error e =>
      rw [hs] at h
      exact absurd h (by simp [Bind.bind, Except.bind, pure, Except.pure])
    | ok st1 =>
      rw [hs] at h
      simp only [Bind.bind, Except.bind] at h
      rw [groupsKeys_cons] at hnd hdisj
      have hnds := List.nodup_append.mp hnd
      have hg := processGroup_liq ratio oracle market_data caps st g st1 hs hI
        hnds.1 (fun k hk => hdisj k (List.mem_append_left _ hk))
      have hdisj' : ∀ k ∈ groupsKeys gs, k ∉ st1.withdrawals.map Prod.fst := by
        intro k hk hmem
        rcases hg.2 k hmem with hold | hnew
        · exact hdisj k (List.mem_append_right _ hk) hold
        · exact hnds.2.2 hnew hk
      obtain ⟨hI', hsub⟩ := ih st1 st' h hg.1 hnds.2.1 hdisj'
      refine ⟨hI', fun k hk => ?_⟩
      rw [groupsKeys_cons]
      rcases hsub k hk with h1 | h2
      · rcases hg.2 k h1 with hold | hnew
        · exact Or.inl hold
        · exact Or.inr (List.mem_append_left _ hnew)
      · exact Or.inr (List.mem_append_right _ h2)

/-- Adding a position to its (present) loan-asset group puts exactly its
key into the collected group keys. -/
lemma addToGroup_keys :
    ∀ (l : List GroupedPosition) (addr : ℕ) (supply : TokenAmount)
      (pos : MarketPosition) (l' : List GroupedPosition),
      addToGroup l addr supply pos = .ok l' →
      (∃ g ∈ l, g.loan_token.address = addr) →
      (groupsKeys l').Perm (pos.unique_key :: groupsKeys l) := by
  intro l
  induction l with
  | nil =>
    intro addr supply pos l' h hex
    obtain ⟨g, hg, _⟩ := hex
    exact absurd hg (List.not_mem_nil g)
  | cons g gs ih =>
    intro addr supply pos l' h hex
    unfold addToGroup at h
    by_cases ha : g.loan_token.address = addr
    · rw [if_pos ha] at h
      cases ht : TokenAmount.add g.total_asset supply with
      | error e =>
        rw [ht] at h
        exact absurd h (by simp [Bind.bind, Except.bind, pure, Except.pure])
      | ok t =>
        rw [ht] at h
        simp only [Bind.bind, Except.bind, pure, Except.pure, Except.ok.injEq] at h
        rw [← h, groupsKeys_cons, groupsKeys_cons]
        show ((g.markets ++ [pos]).map (fun p => p.unique_key) ++
          groupsKeys gs).Perm _
        rw [List.map_append, List.map_cons, List.map_nil, List.append_assoc]
        exact List.perm_middle
    · rw [if_neg ha] at h
      have hex' : ∃ g' ∈ gs, g'.loan_token.address = addr := by
        obtain ⟨g', hg', ha'⟩ := hex
        rcases List.mem_cons.mp hg' with rfl | hmem
        · exact absurd ha' ha
        · exact ⟨g', hmem, ha'⟩
      cases ht : addToGroup gs addr supply pos with
      | error e =>
        rw [ht] at h
        exact absurd h (by simp [Bind.bind, Except.bind, pure, Except.pure])
      | ok gs' =>
        rw [ht] at h
        simp only [Bind.bind, Except.bind, pure, Except.pure, Except.ok.injEq] at h
        rw [← h, groupsKeys_cons, groupsKeys_cons]
        exact ((ih addr supply pos gs' ht hex').append_left _).trans
          List.perm_middle

/-- One grouping step either leaves the collected group keys unchanged
(its position's market is unseen) or adds exactly the position's key. -/
lemma groupStep_keys (markets : List Market) (acc : List GroupedPosition)
    (pos : MarketPosition) (acc' : List GroupedPosition)
    (h : groupStep markets acc pos = .ok acc') :
    groupsKeys acc' = groupsKeys acc ∨
    (groupsKeys acc').Perm (pos.unique_key :: groupsKeys acc) := by
  unfold groupStep at h
  split at h
  · simp only [pure, Except.pure, Except.ok.injEq] at h
    rw [← h]
    exact Or.inl rfl
  · next market hfind =>
    cases hsup : TokenAmount.from_wei pos.supply_assets
        market.loan_asset.decimals with
    | error e =>
      rw [hsup] at h
      exact absurd h (by simp [Bind.bind, Except.bind, pure, Except.pure])
    | ok supply =>
      rw [hsup] at h
      simp only [Bind.bind, Except.bind, pure, Except.pure] at h
      by_cases hany : acc.any
          (fun g => g.loan_token.address == market.loan_asset.address) = true
      · rw [if_pos hany] at h
        have hex : ∃ g ∈ acc, g.loan_token.address =
            market.loan_asset.address := by
          obtain ⟨g, hg, hb⟩ := List.any_eq_true.mp hany
          exact ⟨g, hg, beq_iff_eq.mp hb⟩
        exact Or.inr (addToGroup_keys acc _ supply pos acc' h hex)
      · rw [if_neg hany] at h
        cases hz : TokenAmount.from_wei 0 market.loan_asset.decimals with
        | error e =>
          rw [hz] at h
          exact absurd h (by simp [Bind.bind, Except.bind, pure, Except.pure])
        | ok z =>
          rw [hz] at h
          simp only [Bind.bind, Except.bind, pure, Except.pure] at h
          have hex : ∃ g ∈ acc ++ [⟨market.loan_asset, z, []⟩],
              g.loan_token.address = market.loan_asset.address :=
            ⟨⟨market.loan_asset, z, []⟩, by simp, rfl⟩
          have hp := addToGroup_keys _ _ supply pos acc' h hex
          rw [groupsKeys_append_empty] at hp
          exact Or.inr hp

/-- Over any run of the grouping fold, the collected group keys are a
permutation of the accumulator's keys plus a sublist of the processed
positions' keys. -/
lemma grouping_steps_keys (markets : List Market) :
    ∀ (ps : List MarketPosition) (acc gs : List GroupedPosition),
      ps.foldlM (groupStep markets) acc = .ok gs →
      ∃ ks, (groupsKeys gs).Perm (groupsKeys acc ++ ks) ∧
        ks.Sublist (ps.map (fun p => p.unique_key)) := by
  intro ps
  induction ps with
  | nil =>
    intro acc gs h
    simp only [List.foldlM_nil, pure, Except.pure, Except.ok.injEq] at h
    rw [← h]
    exact ⟨[], by simp, by simp⟩
  | cons p t ih =>
    intro acc gs h
    rw [List.foldlM_cons] at h
    cases hs : groupStep markets acc p with
    | error e =>
      rw [hs] at h
      exact absurd h (by simp [Bind.bind, Except.bind, pure, Except.pure])
    | ok acc1 =>
      rw [hs] at h
      simp only [Bind.bind, Except.bind] at h
      obtain ⟨ks, hperm, hsub⟩ := ih acc1 gs h
      rcases groupStep_keys markets acc p acc1 hs with heq | hstep
      · refine ⟨ks, by rwa [heq] at hperm, ?_⟩
        rw [List.map_cons]
        exact hsub.trans (List.sublist_cons_self _ _)
      · refine ⟨p.unique_key :: ks, ?_, ?_⟩
        · exact (hperm.trans (hstep.append_right ks)).trans List.perm_middle.symm
        · rw [List.map_cons]
          exact hsub.cons₂ _

/-- When the input positions' market keys are distinct, so are the keys
collected across all groups. -/
lemma grouping_keys (positions : List MarketPosition) (markets : List Market)
    (gs : List GroupedPosition)
    (h : group_positions_by_loan_asset positions markets = .ok gs)
    (hnd : (positions.map (fun p => p.unique_key)).Nodup) :
    (groupsKeys gs).Nodup := by
  obtain ⟨ks, hperm, hsub⟩ := grouping_steps_keys markets positions [] gs h
  exact hperm.nodup_iff.mpr (by simpa using hsub.nodup hnd)

/-- Every withdraw action of a finalized plan is one of the engine's
recorded withdrawal entries. -/
lemma finalize_withdraw_actions {st : EngState} {plan : ReallocationStrategy}
    (h : finalizeActions st = .ok plan) :
    ∀ a ∈ plan.actions, a.action_type = ActionType.withdraw →
      ∃ p ∈ st.withdrawals, a.market_id = p.1 ∧ a.amount = p.2.amount := by
  unfold finalizeActions at h
  cases hm : st.supplies.mapM (fun p => do
      let z ← TokenAmount.from_wei 0 p.2.decimals
      pure (MarketAction.mk p.1 .supply p.2.amount z p.2.position
        (some p.2.target_cap))) with
  | error e =>
    rw [hm] at h
    exact absurd h (by simp [Bind.bind, Except.bind, pure, Except.pure])
  | ok ss =>
    rw [hm] at h
    simp only [Bind.bind, Except.bind, pure, Except.pure, Except.ok.injEq] at h
    rw [← h]
    intro a ha hw
    rcases List.mem_append.mp ha with h1 | h2
    · obtain ⟨p, hp, rfl⟩ := List.mem_map.mp h1
      exact ⟨p, hp, rfl, rfl⟩
    · exact absurd hw (by rw [mapM_supply_type st.supplies ss hm a h2]; simp)

/-- C4: in any invocation of `calculate_reallocation` in which each
market holds at most one position (distinct position keys), every
Withdraw action of the returned plan has its asset amount bounded by the
liquidity the oracle reported for its source market during the call, and
that liquidity is positive — in particular, a market whose oracle read
failed (liquidity treated as `0`, the fail-safe of
`get_market_liquidity`) is the source of no withdrawal at all. -/
theorem liquidity_cap (ratio : FP) (oracle : LiquidityOracle)
    (positions : List MarketPosition) (market_caps : List MarketCap)
    (market_data : List Market) (plan : ReallocationStrategy)
    (hone : (positions.map (fun p => p.unique_key)).Nodup)
    (h : calculate_reallocation ratio oracle positions market_caps
      market_data = .ok plan) :
    ∀ a ∈ plan.actions, a.action_type = ActionType.withdraw →
      ((a.amount.raw : ℤ) ≤ get_market_liquidity oracle a.market_id ∧
        0 < get_market_liquidity oracle a.market_id) ∧
      oracle a.market_id ≠ none := by
  unfold calculate_reallocation at h
  by_cases hmd : market_data.isEmpty
  · rw [if_pos hmd] at h
    simp only [pure, Except.pure, Except.ok.injEq] at h
    rw [← h]
    intro a ha
    exact absurd ha (List.not_mem_nil a)
  · rw [if_neg hmd] at h
    cases hg : group_positions_by_loan_asset positions market_data with
    | error e =>
      rw [hg] at h
      exact absurd h (by simp [Bind.bind, Except.bind, pure, Except.pure])
    | ok grouped =>
      rw [hg] at h
      simp only [Bind.bind, Except.bind] at h
      cases hf : grouped.foldlM
          (processGroup market_data (market_caps.map fixCap) oracle ratio)
          ⟨[], [], [], 0⟩ with
      | error e =>
        rw [hf] at h
        exact absurd h (by simp [Bind.bind, Except.bind, pure, Except.pure])
      | ok stF =>
        rw [hf] at h
        simp only [Bind.bind, Except.bind] at h
        have hI0 : LiqInv oracle ⟨[], [], [], 0⟩ :=
          fun p hp => absurd hp (List.not_mem_nil p)
        have hkeys : (groupsKeys grouped).Nodup :=
          grouping_keys positions market_data grouped hg hone
        have hIF : LiqInv oracle stF :=
          (foldGroups_liq ratio oracle market_data (market_caps.map fixCap)
            grouped ⟨[], [], [], 0⟩ stF hf hI0 hkeys
            (fun k _ hm => absurd hm (List.not_mem_nil k))).1
        intro a ha hw
        obtain ⟨p, hp, hmid, hamt⟩ := finalize_withdraw_actions h a ha hw
        have hb := hIF p hp
        rw [hmid, hamt]
        refine ⟨hb, fun hnone => ?_⟩
        have hz : get_market_liquidity oracle p.1 = 0 := by
          unfold get_market_liquidity
          rw [hnone]
        rw [hz] at hb
        exact absurd hb.2 (by omega)

set_option maxRecDepth 100000 in
/-- C4, witness: a run with one position whose market liquidity is
`100 − 40 = 60` (below both the position's 100 and the target's impact
cap) emits a withdraw of exactly 60 from `m1`, and the theorem bounds it
by the reported liquidity, which is positive. -/
theorem liquidity_cap_witness :
    (((60 : ℕ) : ℤ) ≤ get_market_liquidity
        (fun k => if k == ['m', '1'] then some ⟨100, 40⟩ else some ⟨0, 0⟩)
        ['m', '1'] ∧
      0 < get_market_liquidity
        (fun k => if k == ['m', '1'] then some ⟨100, 40⟩ else some ⟨0, 0⟩)
        ['m', '1']) ∧
    ((fun k => if k == ['m', '1'] then some ⟨100, 40⟩ else some ⟨0, 0⟩ :
      LiquidityOracle)) ['m', '1'] ≠ none :=
  liquidity_cap ⟨1, -2⟩
    (fun k => if k == ['m', '1'] then some ⟨100, 40⟩ else some ⟨0, 0⟩)
    [⟨['m', '1'], 100, 999⟩] [⟨['m', '2'], 1⟩]
    [⟨['m', '1'], ⟨10, 6⟩, 1, 2, 3, 4, ⟨0, 1⟩⟩,
     ⟨['m', '2'], ⟨10, 6⟩, 5, 6, 7, 8, ⟨1000, 5⟩⟩]
    ⟨[⟨['m', '1'], .withdraw, ⟨60, 6⟩, ⟨0, 6⟩,
        ⟨['m', '1'], 100, 999⟩, some ⟨['m', '2'], 1⟩⟩,
      ⟨['m', '2'], .supply, ⟨60, 6⟩, ⟨0, 6⟩,
        ⟨['m', '1'], 100, 999⟩, some ⟨['m', '2'], 1⟩⟩]⟩
    (by decide) (by decide)
    ⟨['m', '1'], .withdraw, ⟨60, 6⟩, ⟨0, 6⟩,
      ⟨['m', '1'], 100, 999⟩, some ⟨['m', '2'], 1⟩⟩
    (by decide) (by decide)

/-! #### C8: a no-op run returns an empty plan -/

/-- `from_wei` succeeds on bounded arguments. -/
lemma from_wei_ok_of (w d : ℕ) (hw : w ≤ TokenAmount.MAX_UINT256)
    (hd : d ≤ TokenAmount.MAX_DECIMALS) :
    TokenAmount.from_wei w d = .ok ⟨w, d⟩ := by
  unfold TokenAmount.from_wei
  rw [if_neg (by omega), if_neg (by omega)]
  rfl

/-- `add` succeeds on same-scale amounts whose sum is in range. -/
lemma add_ok_of (a b : TokenAmount) (hd : a.decimals = b.decimals)
    (hs : a.raw + b.raw ≤ TokenAmount.MAX_UINT256) :
    TokenAmount.add a b = .ok ⟨a.raw + b.raw, a.decimals⟩ := by
  unfold TokenAmount.add
  rw [if_neg (not_not_intro hd), if_neg (by omega)]
  rfl

/-- `findMarket` returns a member of the market list. -/
lemma findMarket_mem {markets : List Market} {k : MarketId} {m : Market}
    (h : findMarket markets k = some m) : m ∈ markets := by
  unfold findMarket at h
  exact List.mem_of_find?_eq_some h

/-- `addToGroup` succeeds whenever every group matching the address can
absorb the supply, adds at most the supply to the running totals, and
rewrites each group by at most appending the position to a group that
carries the address. -/
lemma addToGroup_ok :
    ∀ (l : List GroupedPosition) (addr : ℕ) (supply : TokenAmount)
      (pos : MarketPosition),
      (∀ g ∈ l, g.loan_token.address = addr →
        g.total_asset.decimals = supply.decimals ∧
        g.total_asset.raw + supply.raw ≤ TokenAmount.MAX_UINT256) →
      ∃ l', addToGroup l addr supply pos = .ok l' ∧
        groupsTotal l' ≤ groupsTotal l + supply.raw ∧
        ∀ g' ∈ l', ∃ g ∈ l, g'.loan_token = g.loan_token ∧
          g'.total_asset.decimals = g.total_asset.decimals ∧
          (g'.markets = g.markets ∨
            (g'.markets = g.markets ++ [pos] ∧
              g'.loan_token.address = addr)) := by
  intro l
  induction l with
  | nil =>
    intro addr supply pos _
    exact ⟨[], rfl, by simp [groupsTotal], by simp⟩
  | cons g gs ih =>
    intro addr supply pos hpre
    by_cases ha : g.loan_token.address = addr
    · obtain ⟨hdec, hsum⟩ := hpre g (List.mem_cons_self _ _) ha
      have hadd : TokenAmount.add g.total_asset supply =
          .ok ⟨g.total_asset.raw + supply.raw, g.total_asset.decimals⟩ :=
        add_ok_of _ _ hdec hsum
      refine ⟨{ g with
          total_asset := ⟨g.total_asset.raw + supply.raw,
            g.total_asset.decimals⟩,
          markets := g.markets ++ [pos] } :: gs, ?_, ?_, ?_⟩
      · unfold addToGroup
        rw [if_pos ha, hadd]
        rfl
      · simp only [groupsTotal, List.map_cons, List.sum_cons]
        omega
      · intro g' hg'
        rcases List.mem_cons.mp hg' with rfl | hmem
        · exact ⟨g, List.mem_cons_self _ _, rfl, rfl, Or.inr ⟨rfl, ha⟩⟩
        · exact ⟨g', List.mem_cons_of_mem _ hmem, rfl, rfl, Or.inl rfl⟩
    · obtain ⟨gs', hgs', htot, hmap⟩ := ih addr supply pos
        (fun g' hm ha' => hpre g' (List.mem_cons_of_mem _ hm) ha')
      refine ⟨g :: gs', ?_, ?_, ?_⟩
      · unfold addToGroup
        rw [if_neg ha, hgs']
        rfl
      · simp only [groupsTotal, List.map_cons, List.sum_cons] at htot ⊢
        omega
      · intro g' hg'
        rcases List.mem_cons.mp hg' with rfl | hmem
        · exact ⟨g', List.mem_cons_self _ _, rfl, rfl, Or.inl rfl⟩
        · obtain ⟨g0, hg0, h1, h2, h3⟩ := hmap g' hmem
          exact ⟨g0, List.mem_cons_of_mem _ hg0, h1, h2, h3⟩

/-- When every market's loan asset is within bounds, same-address loan
assets agree on decimals, and the positions' total supply fits in a
uint256, the grouping fold succeeds and its result is well formed. -/
lemma grouping_ok (positions : List MarketPosition) (markets : List Market)
    (hdecs : ∀ m ∈ markets, m.loan_asset.decimals ≤ TokenAmount.MAX_DECIMALS)
    (haddr : ∀ m ∈ markets, ∀ m' ∈ markets,
      m.loan_asset.address = m'.loan_asset.address →
      m.loan_asset.decimals = m'.loan_asset.decimals) :
    ∀ (ps : List MarketPosition) (acc : List GroupedPosition),
      (∀ p ∈ ps, p ∈ positions) →
      GInv positions markets acc →
      groupsTotal acc + (ps.map (fun p => p.supply_assets)).sum ≤
        TokenAmount.MAX_UINT256 →
      ∃ gs, ps.foldlM (groupStep markets) acc = .ok gs ∧
        GInv positions markets gs := by
  intro ps
  induction ps with
  | nil =>
    intro acc _ hGI _
    exact ⟨acc, rfl, hGI⟩
  | cons p t ih =>
    intro acc hmem hGI hbound
    simp only [List.map_cons, List.sum_cons] at hbound
    cases hfm : findMarket markets p.unique_key with
    | none =>
      obtain ⟨gs, hgs, hGI'⟩ := ih acc
        (fun q hq => hmem q (List.mem_cons_of_mem _ hq)) hGI (by omega)
      refine ⟨gs, ?_, hGI'⟩
      have hstep : groupStep markets acc p = .ok acc := by
        unfold groupStep
        rw [hfm]
        rfl
      rw [List.foldlM_cons, hstep]
      simp only [Bind.bind, Except.bind]
      exact hgs
    | some m =>
      have hmmem : m ∈ markets := findMarket_mem hfm
      have hsup : TokenAmount.from_wei p.supply_assets
          m.loan_asset.decimals = .ok ⟨p.supply_assets,
            m.loan_asset.decimals⟩ :=
        from_wei_ok_of _ _ (by omega) (hdecs m hmmem)
      -- the accumulator after the optional group creation
      by_cases hany : acc.any
          (fun g => g.loan_token.address == m.loan_asset.address) = true
      · -- existing group: add in place
        have hpre : ∀ g ∈ acc, g.loan_token.address = m.loan_asset.address →
            g.total_asset.decimals =
              (⟨p.supply_assets, m.loan_asset.decimals⟩ : TokenAmount).decimals ∧
            g.total_asset.raw + p.supply_assets ≤ TokenAmount.MAX_UINT256 := by
          intro g hg hga
          obtain ⟨⟨m0, hm0, hm0e⟩, hgd, _⟩ := hGI g hg
          constructor
          · show g.total_asset.decimals = m.loan_asset.decimals
            rw [hgd, hm0e]
            exact haddr m0 hm0 m hmmem (by rw [← hm0e, hga])
          · have hle : g.total_asset.raw ≤ groupsTotal acc :=
              List.single_le_sum (fun _ _ => Nat.zero_le _) _
                (List.mem_map_of_mem (fun g => g.total_asset.raw) hg)
            omega
        obtain ⟨acc1, hacc1, htot1, hmap1⟩ := addToGroup_ok acc
          m.loan_asset.address ⟨p.supply_assets, m.loan_asset.decimals⟩ p hpre
        have hGI1 : GInv positions markets acc1 := by
          intro g' hg'
          obtain ⟨g, hg, hlt, hdec, hmk⟩ := hmap1 g' hg'
          obtain ⟨⟨m0, hm0, hm0e⟩, hgd, hmks⟩ := hGI g hg
          refine ⟨⟨m0, hm0, by rw [hlt, hm0e]⟩, by rw [hdec, hlt, hgd], ?_⟩
          intro p' hp'
          rcases hmk with heq | ⟨heq, haddr'⟩
          · obtain ⟨hpp, m1, hm1, hma⟩ := hmks p' (heq ▸ hp')
            exact ⟨hpp, m1, hm1, by rw [hlt]; exact hma⟩
          · rw [heq] at hp'
            rcases List.mem_append.mp hp' with hin | hnew
            · obtain ⟨hpp, m1, hm1, hma⟩ := hmks p' hin
              exact ⟨hpp, m1, hm1, by rw [hlt]; exact hma⟩
            · have hp'p : p' = p := List.mem_singleton.mp hnew
              subst hp'p
              exact ⟨hmem p' (List.mem_cons_self _ _),
                ⟨m, hfm, by rw [haddr']⟩⟩
        have htot1a : groupsTotal acc1 ≤ groupsTotal acc + p.supply_assets :=
          htot1
        obtain ⟨gs, hgs, hGI'⟩ := ih acc1
          (fun q hq => hmem q (List.mem_cons_of_mem _ hq)) hGI1 (by omega)
        refine ⟨gs, ?_, hGI'⟩
        have hstep : groupStep markets acc p = .ok acc1 := by
          unfold groupStep
          rw [hfm]
          simp only [Bind.bind, Except.bind, pure, Except.pure, hsup]
          rw [if_pos hany]
          exact hacc1
        rw [List.foldlM_cons, hstep]
        simp only [Bind.bind, Except.bind]
        exact hgs
      · -- fresh loan asset: create the group, then add
        have hz : TokenAmount.from_wei 0 m.loan_asset.decimals =
            .ok ⟨0, m.loan_asset.decimals⟩ :=
          from_wei_ok_of _ _ (Nat.zero_le _) (hdecs m hmmem)
        have hGIa : GInv positions markets
            (acc ++ [⟨m.loan_asset, ⟨0, m.loan_asset.decimals⟩, []⟩]) := by
          intro g hg
          rcases List.mem_append.mp hg with hin | hnew
          · exact hGI g hin
          · have hgeq := List.mem_singleton.mp hnew
            subst hgeq
            exact ⟨⟨m, hmmem, rfl⟩, rfl,
              fun p' hp' => absurd hp' (List.not_mem_nil p')⟩
        have htote : groupsTotal
            (acc ++ [⟨m.loan_asset, ⟨0, m.loan_asset.decimals⟩, []⟩]) =
            groupsTotal acc := by
          simp [groupsTotal]
        have hpre : ∀ g ∈ acc ++ [⟨m.loan_asset,
            ⟨0, m.loan_asset.decimals⟩, []⟩],
            g.loan_token.address = m.loan_asset.address →
            g.total_asset.decimals =
              (⟨p.supply_assets, m.loan_asset.decimals⟩ : TokenAmount).decimals ∧
            g.total_asset.raw + p.supply_assets ≤ TokenAmount.MAX_UINT256 := by
          intro g hg hga
          obtain ⟨⟨m0, hm0, hm0e⟩, hgd, _⟩ := hGIa g hg
          constructor
          · show g.total_asset.decimals = m.loan_asset.decimals
            rw [hgd, hm0e]
            exact haddr m0 hm0 m hmmem (by rw [← hm0e, hga])
          · have hle : g.total_asset.raw ≤ groupsTotal
                (acc ++ [⟨m.loan_asset, ⟨0, m.loan_asset.decimals⟩, []⟩]) :=
              List.single_le_sum (fun _ _ => Nat.zero_le _) _
                (List.mem_map_of_mem (fun g => g.total_asset.raw) hg)
            omega
        obtain ⟨acc1, hacc1, htot1, hmap1⟩ := addToGroup_ok
          (acc ++ [⟨m.loan_asset, ⟨0, m.loan_asset.decimals⟩, []⟩])
          m.loan_asset.address ⟨p.supply_assets, m.loan_asset.decimals⟩ p hpre
        have hGI1 : GInv positions markets acc1 := by
          intro g' hg'
          obtain ⟨g, hg, hlt, hdec, hmk⟩ := hmap1 g' hg'
          obtain ⟨⟨m0, hm0, hm0e⟩, hgd, hmks⟩ := hGIa g hg
          refine ⟨⟨m0, hm0, by rw [hlt, hm0e]⟩, by rw [hdec, hlt, hgd], ?_⟩
          intro p' hp'
          rcases hmk with heq | ⟨heq, haddr'⟩
          · obtain ⟨hpp, m1, hm1, hma⟩ := hmks p' (heq ▸ hp')
            exact ⟨hpp, m1, hm1, by rw [hlt]; exact hma⟩
          · rw [heq] at hp'
            rcases List.mem_append.mp hp' with hin | hnew
            · obtain ⟨hpp, m1, hm1, hma⟩ := hmks p' hin
              exact ⟨hpp, m1, hm1, by rw [hlt]; exact hma⟩
            · have hp'p : p' = p := List.mem_singleton.mp hnew
              subst hp'p
              exact ⟨hmem p' (List.mem_cons_self _ _),
                ⟨m, hfm, by rw [haddr']⟩⟩
        have htot1a : groupsTotal acc1 ≤ groupsTotal acc + p.supply_assets := by
          rw [htote] at htot1
          exact htot1
        obtain ⟨gs, hgs, hGI'⟩ := ih acc1
          (fun q hq => hmem q (List.mem_cons_of_mem _ hq)) hGI1 (by omega)
        refine ⟨gs, ?_, hGI'⟩
        have hstep : groupStep markets acc p = .ok acc1 := by
          unfold groupStep
          rw [hfm]
          simp only [Bind.bind, Except.bind, pure, Except.pure, hsup]
          rw [if_neg hany]
          simp only [Bind.bind, Except.bind, pure, Except.pure, hz]
          exact hacc1
        rw [List.foldlM_cons, hstep]
        simp only [Bind.bind, Except.bind]
        exact hgs

/-- The candidate walk breaks immediately (state untouched) when the
current APY already matches or beats the first — highest — candidate. -/
lemma walk_break (caps : List MarketCap) (oracle : LiquidityOracle)
    (ratio : FP) (pos : MarketPosition) (posMarket : Market) (posAmt : ℕ)
    (capy : ℚ) (c : Market × ℚ) (rest : List (Market × ℚ)) (st : EngState)
    (hbr : capy ≥ c.2) :
    walkCandidates caps oracle ratio pos posMarket posAmt capy (c :: rest)
      st = .ok st := by
  obtain ⟨m, q⟩ := c
  unfold walkCandidates
  rw [if_pos hbr]
  rfl

/-- A position whose market APY dominates the top capped candidate is
processed without touching the (empty) engine state. -/
lemma processPosition_noop (markets : List Market) (caps : List MarketCap)
    (oracle : LiquidityOracle) (ratio : FP) (c : Market × ℚ)
    (rest : List (Market × ℚ)) (d : ℕ) (pos : MarketPosition)
    (hm : ∀ m, findMarket markets pos.unique_key = some m →
      m.state.supply_apy ≥ c.2)
    (hw : pos.supply_assets ≤ TokenAmount.MAX_UINT256)
    (hd : d ≤ TokenAmount.MAX_DECIMALS) :
    processPosition markets caps oracle ratio (c :: rest) ⟨[], [], [], d⟩
      pos = .ok ⟨[], [], [], d⟩ := by
  unfold processPosition
  cases hf : findMarket markets pos.unique_key with
  | none =>
    rfl
  | some m =>
    simp only [Bind.bind, Except.bind, from_wei_ok_of pos.supply_assets d hw hd]
    exact walk_break caps oracle ratio pos m pos.supply_assets
      m.state.supply_apy c rest ⟨[], [], [], d⟩ (hm m hf)

/-- A whole position list of APY-dominating positions folds to the same
empty state. -/
lemma foldPositions_noop (markets : List Market) (caps : List MarketCap)
    (oracle : LiquidityOracle) (ratio : FP) (c : Market × ℚ)
    (rest : List (Market × ℚ)) (d : ℕ) :
    ∀ ps : List MarketPosition,
      (∀ p ∈ ps, p.supply_assets ≤ TokenAmount.MAX_UINT256 ∧
        ∀ m, findMarket markets p.unique_key = some m →
          m.state.supply_apy ≥ c.2) →
      d ≤ TokenAmount.MAX_DECIMALS →
      ps.foldlM (processPosition markets caps oracle ratio (c :: rest))
        ⟨[], [], [], d⟩ = .ok ⟨[], [], [], d⟩ := by
  intro ps
  induction ps with
  | nil => intro _ _; rfl
  | cons p t ih =>
    intro hps hd
    rw [List.foldlM_cons, processPosition_noop markets caps oracle ratio c
      rest d p (hps p (List.mem_cons_self _ _)).2
      (hps p (List.mem_cons_self _ _)).1 hd]
    simp only [Bind.bind, Except.bind]
    exact ih (fun q hq => hps q (List.mem_cons_of_mem _ hq)) hd

/-- One group of APY-dominating positions is processed without recording
any withdrawal, supply or allocation. -/
lemma processGroup_noop (markets : List Market) (caps : List MarketCap)
    (oracle : LiquidityOracle) (ratio : FP) (g : GroupedPosition) (d : ℕ)
    (hgd : g.loan_token.decimals ≤ TokenAmount.MAX_DECIMALS)
    (hps : ∀ p ∈ g.markets, p.supply_assets ≤ TokenAmount.MAX_UINT256 ∧
      ∃ m, findMarket markets p.unique_key = some m ∧
        m.loan_asset.address = g.loan_token.address ∧
        (∀ c ∈ markets, (capsFind caps c.unique_key).isSome = true →
          c.loan_asset.address = m.loan_asset.address →
          c.state.supply_apy ≤ m.state.supply_apy)) :
    processGroup markets caps oracle ratio ⟨[], [], [], d⟩ g =
      .ok ⟨[], [], [], g.loan_token.decimals⟩ := by
  unfold processGroup
  by_cases hav : (filter_available_markets g.loan_token.address markets).isEmpty
  · rw [if_pos hav]
    rfl
  · rw [if_neg hav]
    by_cases hcap : (sortDescBy (fun p => p.2)
        (((filter_available_markets g.loan_token.address markets).filter
          (fun m => (capsFind caps m.unique_key).isSome)).map
            (fun m => (m, m.state.supply_apy)))).isEmpty
    · rw [if_pos hcap]
      rfl
    · rw [if_neg hcap]
      have hne : sortDescBy (fun p => p.2)
          (((filter_available_markets g.loan_token.address markets).filter
            (fun m => (capsFind caps m.unique_key).isSome)).map
              (fun m => (m, m.state.supply_apy))) ≠ [] := by
        intro hnil
        rw [hnil] at hcap
        exact hcap rfl
      obtain ⟨c, rest, hcr⟩ := List.exists_cons_of_ne_nil hne
      rw [hcr]
      -- the head candidate is a capped available market of the group
      have hc : c ∈ sortDescBy (fun p => p.2)
          (((filter_available_markets g.loan_token.address markets).filter
            (fun m => (capsFind caps m.unique_key).isSome)).map
              (fun m => (m, m.state.supply_apy))) := by
        rw [hcr]
        exact List.mem_cons_self _ _
      rw [mem_sortDescBy] at hc
      obtain ⟨cm, hcmf, hcme⟩ := List.mem_map.mp hc
      have hcm2 : (capsFind caps cm.unique_key).isSome = true :=
        (List.mem_filter.mp hcmf).2
      have hcm1 : cm ∈ filter_available_markets g.loan_token.address markets :=
        (List.mem_filter.mp hcmf).1
      unfold filter_available_markets at hcm1
      rw [mem_sortDescBy] at hcm1
      have hcmm : cm ∈ markets := (List.mem_filter.mp hcm1).1
      have hcma : cm.loan_asset.address = g.loan_token.address :=
        beq_iff_eq.mp (List.mem_filter.mp hcm1).2
      exact foldPositions_noop markets caps oracle ratio c rest
        g.loan_token.decimals g.markets
        (by
          intro p hp
          obtain ⟨hpw, m, hm, hma, hdom⟩ := hps p hp
          refine ⟨hpw, fun m' hm' => ?_⟩
          have hmm' : m' = m := by
            rw [hm'] at hm
            exact Option.some.inj hm
          subst hmm'
          rw [← hcme]
          exact hdom cm hcmm hcm2 (by rw [hcma, hma]))
        hgd

/-- The group fold over APY-dominating groups keeps the engine state
empty (only the group-scoped decimals variable moves). -/
lemma foldGroups_noop (markets : List Market) (caps : List MarketCap)
    (oracle : LiquidityOracle) (ratio : FP) :
    ∀ (gs : List GroupedPosition),
      (∀ g ∈ gs, g.loan_token.decimals ≤ TokenAmount.MAX_DECIMALS ∧
        ∀ p ∈ g.markets, p.supply_assets ≤ TokenAmount.MAX_UINT256 ∧
          ∃ m, findMarket markets p.unique_key = some m ∧
            m.loan_asset.address = g.loan_token.address ∧
            (∀ c ∈ markets, (capsFind caps c.unique_key).isSome = true →
              c.loan_asset.address = m.loan_asset.address →
              c.state.supply_apy ≤ m.state.supply_apy)) →
      ∀ d, ∃ d', gs.foldlM (processGroup markets caps oracle ratio)
        ⟨[], [], [], d⟩ = .ok ⟨[], [], [], d'⟩ := by
  intro gs
  induction gs with
  | nil =>
    intro _ d
    exact ⟨d, rfl⟩
  | cons g t ih =>
    intro hgs d
    obtain ⟨d', hd'⟩ := ih (fun g' hg' => hgs g' (List.mem_cons_of_mem _ hg'))
      g.loan_token.decimals
    refine ⟨d', ?_⟩
    rw [List.foldlM_cons, processGroup_noop markets caps oracle ratio g d
      (hgs g (List.mem_cons_self _ _)).1 (hgs g (List.mem_cons_self _ _)).2]
    simp only [Bind.bind, Except.bind]
    exact hd'

/-- C8: when every position's current market has a supply APY at least
as high as every capped candidate market of its asset group (after the
cap-id fixing pass), `calculate_reallocation` returns a plan with an
empty action list — a no-op run, not an error.  The well-formedness
hypotheses mirror on-chain data validity: token decimals within the
77-digit bound, same-address loan assets agreeing on decimals, and the
positions' total supply fitting in a uint256 (these rule out the
validation errors `TokenAmount` raises on malformed amounts). -/
theorem noop_empty_plan (ratio : FP) (oracle : LiquidityOracle)
    (positions : List MarketPosition) (market_caps : List MarketCap)
    (market_data : List Market)
    (hdecs : ∀ m ∈ market_data,
      m.loan_asset.decimals ≤ TokenAmount.MAX_DECIMALS)
    (haddr : ∀ m ∈ market_data, ∀ m' ∈ market_data,
      m.loan_asset.address = m'.loan_asset.address →
      m.loan_asset.decimals = m'.loan_asset.decimals)
    (hsum : (positions.map (fun p => p.supply_assets)).sum ≤
      TokenAmount.MAX_UINT256)
    (happy : ∀ p ∈ positions, ∀ m,
      findMarket market_data p.unique_key = some m →
      ∀ c ∈ market_data,
        (capsFind (market_caps.map fixCap) c.unique_key).isSome = true →
        c.loan_asset.address = m.loan_asset.address →
        c.state.supply_apy ≤ m.state.supply_apy) :
    calculate_reallocation ratio oracle positions market_caps market_data =
      .ok ⟨[]⟩ := by
  unfold calculate_reallocation
  by_cases hmd : market_data.isEmpty
  · rw [if_pos hmd]
    rfl
  · rw [if_neg hmd]
    obtain ⟨gs, hgs, hGI⟩ := grouping_ok positions market_data hdecs haddr
      positions [] (fun p hp => hp)
      (fun g hg => absurd hg (List.not_mem_nil g))
      (by simpa [groupsTotal] using hsum)
    have hgs' : group_positions_by_loan_asset positions market_data =
        .ok gs := hgs
    rw [hgs']
    simp only [Bind.bind, Except.bind]
    obtain ⟨d', hfold⟩ := foldGroups_noop market_data
      (market_caps.map fixCap) oracle ratio gs
      (by
        intro g hg
        obtain ⟨⟨m0, hm0, hm0e⟩, _, hmks⟩ := hGI g hg
        refine ⟨by rw [hm0e]; exact hdecs m0 hm0, ?_⟩
        intro p hp
        obtain ⟨hpp, m, hm, hma⟩ := hmks p hp
        refine ⟨?_, m, hm, hma, ?_⟩
        · exact le_trans (List.single_le_sum (fun _ _ => Nat.zero_le _) _
            (List.mem_map_of_mem (fun p => p.supply_assets) hpp)) hsum
        · intro c hc hcap hca
          exact happy p hpp m hm c hc hcap hca)
      0
    rw [hfold]
    rfl

set_option maxRecDepth 100000 in
/-- C8, witness: one position in a market with APY 9 whose only capped
candidate has APY 5 — the run returns the empty plan. -/
theorem noop_empty_plan_witness :
    calculate_reallocation ⟨1, -2⟩ (fun _ => some ⟨0, 0⟩)
      [⟨['m', '1'], 100, 999⟩] [⟨['m', '2'], 1⟩]
      [⟨['m', '1'], ⟨10, 6⟩, 1, 2, 3, 4, ⟨0, 9⟩⟩,
       ⟨['m', '2'], ⟨10, 6⟩, 5, 6, 7, 8, ⟨1000, 5⟩⟩] = .ok ⟨[]⟩ :=
  noop_empty_plan ⟨1, -2⟩ (fun _ => some ⟨0, 0⟩)
    [⟨['m', '1'], 100, 999⟩] [⟨['m', '2'], 1⟩]
    [⟨['m', '1'], ⟨10, 6⟩, 1, 2, 3, 4, ⟨0, 9⟩⟩,
     ⟨['m', '2'], ⟨10, 6⟩, 5, 6, 7, 8, ⟨1000, 5⟩⟩]
    (by decide) (by decide) (by decide) (by decide)

end Claims
